import Mathlib

/-!
# JTX core engine — shallow embedding and verification

This file embeds the core algorithms of the JTX client-side reactive engine
in Lean 4 and proves properties of them:

* the JSON-shaped value universe and the `toStr` / `isObj` / `deepGet`
  utilities (`src/utils.js`);
* the `on`-attribute parser (`src/on-parser.mjs`);
* the keyed list engine of `<jtx-insert>`: `materializeList`, key
  derivation and validation, and the replace / append / prepend / merge
  update strategies with window trimming (`src/bindings.js`,
  `bindInsertList`);
* the state-flush pipeline `flushStateUpdates` of the reactive core
  (`src/core.js`), including re-entrant writes performed by `update`
  event listeners;
* the binding-to-dependency graph operations `runBinding` /
  `recordDependency` (`src/core.js`);
* the scope resolver `resolveState` / `resolveSrc` / `$ref`
  (`src/context.js`);
* the HTTP source fetch path and the status-slot updater
  (`src/source.js`).

JavaScript host services (the DOM, `fetch`, `JSON.parse`, expression
evaluation by `new Function`) are modelled as explicit parameters or as
input data, so every definition below is executable.
-/

namespace JTX

/-! ## JSON-shaped values (`src/utils.js`)

`JVal` models the JavaScript values the engine manipulates: `null`,
`undefined`, booleans, (integer) numbers, strings, arrays and plain
objects.  Reference proxies are always unwrapped (`unwrapRef`) before the
engine stores or compares values, so the universe of already-unwrapped
values suffices; `unwrapRef` is the identity here. -/

inductive JVal where
  | null : JVal
  | undef : JVal
  | bool (b : Bool) : JVal
  | num (n : Int) : JVal
  | str (s : String) : JVal
  | arr (xs : List JVal) : JVal
  | obj (fields : List (String × JVal)) : JVal
deriving Repr, Inhabited

/-- `v == null` in JavaScript: true for both `null` and `undefined`. -/
def JVal.isNullish : JVal → Bool
  | .null => true
  | .undef => true
  | _ => false

/-- `isObj` from `src/utils.js`: non-null, `typeof v === 'object'`, not an
array — i.e. exactly the plain-object case. -/
def isObj : JVal → Bool
  | .obj _ => true
  | _ => false

mutual

/-- `String(v)` for our value universe (default `toString` behaviour of
JSON-shaped data: arrays join their elements with `,`, objects print as
`[object Object]`). -/
def jsString : JVal → String
  | .null => "null"
  | .undef => "undefined"
  | .bool true => "true"
  | .bool false => "false"
  | .num n => toString n
  | .str s => s
  | .arr xs => jsStringArr xs
  | .obj _ => "[object Object]"

/-- `Array.prototype.toString`: elements stringified (nullish → empty)
and joined with commas. -/
def jsStringArr : List JVal → String
  | [] => ""
  | [x] => jsElemString x
  | x :: xs => jsElemString x ++ "," ++ jsStringArr xs

/-- An array element in `join`: `null`/`undefined` render as empty. -/
def jsElemString (v : JVal) : String :=
  match v with
  | .null => ""
  | .undef => ""
  | v => jsString v

end

/-- `toStr` from `src/utils.js`: `v == null ? '' : String(v)`. -/
def toStr (v : JVal) : String :=
  if v.isNullish then "" else jsString v

/-- `toStr` on a string value is that string.  (`jsString` is compiled
by well-founded recursion, so these evaluation lemmas are used in place
of definitional reduction.) -/
theorem toStr_str (s : String) : toStr (.str s) = s := by
  simp [toStr, jsString, JVal.isNullish]

/-- `toStr` on a number renders its decimal form. -/
theorem toStr_num (n : Int) : toStr (.num n) = toString n := by
  simp [toStr, jsString, JVal.isNullish]

/-- `unwrapRef` from `src/context.js`, restricted to the plain-value
universe: reference proxies never inhabit `JVal`, so it is the identity. -/
def unwrapRef (v : JVal) : JVal := v

/-- `deepGet` from `src/utils.js`: walk a dotted path through objects
(and arrays by numeric index); missing steps yield `undefined`. -/
def deepGetSegs (v : JVal) : List String → JVal
  | [] => v
  | p :: ps =>
    match v with
    | .obj fields =>
      match fields.lookup p with
      | some w => deepGetSegs w ps
      | none => JVal.undef
    | .arr xs =>
      match p.toNat? with
      | some i =>
        match xs[i]? with
        | some w => deepGetSegs w ps
        | none => JVal.undef
      | none => JVal.undef
    | _ => JVal.undef

/-- `deepGet(obj, path)`: `path` empty returns the value unchanged,
otherwise the path is split on `.` and walked. -/
def deepGet (v : JVal) (path : String) : JVal :=
  if path = "" then v else deepGetSegs v (path.splitOn ".")

/-! ## The `on`-attribute parser (`src/on-parser.mjs`)

The parser scans character by character, tracking a quote state (single,
double, back-tick; inside a back-tick a `${` increments the bracket
depth) and a bracket/brace/paren depth, together with a backslash-escape
flag.  `splitTopLevel` cuts at delimiters seen with no quote open and
depth 0; `findTopLevelColon` locates the first top-level colon of a
segment. -/

/-- The scanner state: the currently open quote character (if any), the
bracket nesting depth, and whether the previous character was an
unconsumed backslash escape inside a quote. -/
structure ScanSt where
  quote : Option Char
  depth : Nat
  escape : Bool
deriving Repr, DecidableEq

/-- The initial scanner state: no quote, depth 0, no pending escape. -/
def ScanSt.init : ScanSt := ⟨none, 0, false⟩

/-- `'(' || '[' || '{'`. -/
def isOpenBr (c : Char) : Bool := c = '(' || c = '[' || c = '{'

/-- `')' || ']' || '}'`. -/
def isCloseBr (c : Char) : Bool := c = ')' || c = ']' || c = '}'

/-- A quote-opening character: `'`, `"` or a back-tick. -/
def isQuoteCh (c : Char) : Bool := c = '\'' || c = '"' || c = '`'

/-- JavaScript `String.prototype.trim`: drop whitespace from both ends.
(Defined structurally on the character list so that it reduces inside
proofs.) -/
def jsTrim (s : String) : String :=
  String.mk (((s.data.dropWhile Char.isWhitespace).reverse.dropWhile Char.isWhitespace).reverse)

/-- Flush helper of `splitTopLevel`: the accumulated characters (held in
reverse) are turned into a trimmed part string. -/
def flushPart (curr : List Char) : String := jsTrim (String.mk curr.reverse)

/-- The character loop of `splitTopLevel`: `curr` holds the characters of
the pending part in reverse, `acc` the finished parts in reverse.  A
`${` inside a back-tick consumes two characters and increments the
depth; a delimiter with no quote open and depth 0 flushes the pending
part (trimmed; dropped when empty). -/
def splitTopLevelAux (delim : Char) : List Char → ScanSt → List Char → List String → List String
  | [], _, curr, acc =>
    let tail := flushPart curr
    ((if tail = "" then acc else tail :: acc)).reverse
  | ch :: rest, st, curr, acc =>
    match st.quote with
    | some q =>
      if st.escape then
        splitTopLevelAux delim rest { st with escape := false } (ch :: curr) acc
      else if ch = '\\' then
        splitTopLevelAux delim rest { st with escape := true } (ch :: curr) acc
      else if ch = q then
        splitTopLevelAux delim rest { st with quote := none } (ch :: curr) acc
      else if q = '`' ∧ ch = '$' then
        match _h2 : rest with
        | '{' :: rest2 =>
          splitTopLevelAux delim rest2 { st with depth := st.depth + 1 } ('{' :: ch :: curr) acc
        | _ => splitTopLevelAux delim rest st (ch :: curr) acc
      else
        splitTopLevelAux delim rest st (ch :: curr) acc
    | none =>
      if isQuoteCh ch then
        splitTopLevelAux delim rest { st with quote := some ch } (ch :: curr) acc
      else if isOpenBr ch then
        splitTopLevelAux delim rest { st with depth := st.depth + 1 } (ch :: curr) acc
      else if isCloseBr ch then
        splitTopLevelAux delim rest { st with depth := st.depth - 1 } (ch :: curr) acc
      else if ch = delim ∧ st.depth = 0 then
        let part := flushPart curr
        splitTopLevelAux delim rest st [] (if part = "" then acc else part :: acc)
      else
        splitTopLevelAux delim rest st (ch :: curr) acc
termination_by cs _ _ _ => cs.length
decreasing_by all_goals simp_all <;> omega

/-- `jsTrim` of the empty string. -/
theorem jsTrim_empty : jsTrim "" = "" := rfl

/-- `splitTopLevel` from `src/on-parser.mjs`: split at top-level
delimiters, trimming each part and dropping empty ones. -/
def splitTopLevel (expr : String) (delim : Char) : List String :=
  splitTopLevelAux delim expr.data ScanSt.init [] []

/-- The character loop of `findTopLevelColon`: the same scanner, looking
for the first `:` seen with no quote open and depth 0; `i` counts the
characters consumed so far. -/
def findTopLevelColonAux : List Char → ScanSt → Nat → Option Nat
  | [], _, _ => none
  | ch :: rest, st, i =>
    match st.quote with
    | some q =>
      if st.escape then
        findTopLevelColonAux rest { st with escape := false } (i + 1)
      else if ch = '\\' then
        findTopLevelColonAux rest { st with escape := true } (i + 1)
      else if ch = q then
        findTopLevelColonAux rest { st with quote := none } (i + 1)
      else if q = '`' ∧ ch = '$' then
        match _h2 : rest with
        | '{' :: rest2 =>
          findTopLevelColonAux rest2 { st with depth := st.depth + 1 } (i + 2)
        | _ => findTopLevelColonAux rest st (i + 1)
      else
        findTopLevelColonAux rest st (i + 1)
    | none =>
      if isQuoteCh ch then
        findTopLevelColonAux rest { st with quote := some ch } (i + 1)
      else if isOpenBr ch then
        findTopLevelColonAux rest { st with depth := st.depth + 1 } (i + 1)
      else if isCloseBr ch then
        findTopLevelColonAux rest { st with depth := st.depth - 1 } (i + 1)
      else if ch = ':' ∧ st.depth = 0 then
        some i
      else
        findTopLevelColonAux rest st (i + 1)
termination_by cs _ _ => cs.length
decreasing_by all_goals simp_all <;> omega

/-- `findTopLevelColon` from `src/on-parser.mjs`: index of the first
top-level colon of a segment, or `none`. -/
def findTopLevelColon (segment : String) : Option Nat :=
  findTopLevelColonAux segment.data ScanSt.init 0

/-- Substring of the first `n` characters (`s.slice(0, n)`). -/
def strTake (s : String) (n : Nat) : String := String.mk (s.data.take n)

/-- Substring from character `n` on (`s.slice(n)`). -/
def strDrop (s : String) (n : Nat) : String := String.mk (s.data.drop n)

/-- A parsed `event:code` pair of an `on` attribute. -/
structure OnEntry where
  event : String
  code : String
deriving Repr, DecidableEq

/-- Continuation append: `last.code = last.code ? last.code + '; ' +
suffix : suffix`. -/
def appendCode (last : OnEntry) (suffix : String) : OnEntry :=
  { last with code := if last.code = "" then suffix else last.code ++ "; " ++ suffix }

/-- The segment loop of `parseOnAttribute`; `out` holds the entries built
so far in reverse (so the head is the most recent entry, matching
`out[out.length - 1]` in the source).  A segment with no top-level colon
is appended to the most recent entry's code (dropped when there is
none); otherwise the segment is split at its first top-level colon into
a trimmed event name and code, and entries with an empty event name are
discarded. -/
def parseOnSegments : List String → List OnEntry → List OnEntry
  | [], out => out.reverse
  | seg :: rest, out =>
    let trimmed := jsTrim seg
    if trimmed = "" then parseOnSegments rest out
    else
      match findTopLevelColon trimmed with
      | none =>
        match out with
        | [] => parseOnSegments rest out
        | last :: prev => parseOnSegments rest (appendCode last trimmed :: prev)
      | some idx =>
        let event := jsTrim (strTake trimmed idx)
        let code := jsTrim (strDrop trimmed (idx + 1))
        if event = "" then parseOnSegments rest out
        else parseOnSegments rest (⟨event, code⟩ :: out)

/-- `parseOnAttribute` from `src/on-parser.mjs`: split the attribute at
top-level semicolons, assemble `event:code` entries, and drop entries
with (blank) empty code. -/
def parseOnAttribute (expr : String) : List OnEntry :=
  if expr = "" ∨ jsTrim expr = "" then []
  else (parseOnSegments (splitTopLevel expr ';') []).filter
    (fun e => e.code ≠ "" && jsTrim e.code ≠ "")

/-! ### Specification-side description of `parseOnAttribute`

`onSpecStep` renders one sentence of the specification as a left fold
step over the split segments: a segment with no top-level colon is
appended to the preceding entry's code, otherwise the first top-level
colon separates the (trimmed) event name from the (trimmed) code.  The
flag `requireEvent` distinguishes the claim as written (`false`: every
colon segment yields an entry) from the behaviour of the code (`true`:
entries whose event name is empty are discarded). -/

/-- One specification-side fold step over a split segment. -/
def onSpecStep (requireEvent : Bool) (acc : List OnEntry) (seg : String) : List OnEntry :=
  let trimmed := jsTrim seg
  if trimmed = "" then acc
  else
    match findTopLevelColon trimmed with
    | none =>
      match acc.getLast? with
      | none => acc
      | some last => acc.dropLast ++ [appendCode last trimmed]
    | some idx =>
      let event := jsTrim (strTake trimmed idx)
      let code := jsTrim (strDrop trimmed (idx + 1))
      if requireEvent && event = "" then acc
      else acc ++ [⟨event, code⟩]

/-- Modelled from the spec: the claim's description of
`parseOnAttribute` — split at top-level semicolons, fold the segments
(first top-level colon separates event from code, trimming whitespace;
no-colon segments extend the preceding entry's code), and drop entries
whose code is (blank) empty.  With `requireEvent := false` this is the
claim exactly as written; with `true` it additionally discards entries
whose event name is empty. -/
def parseOnClaim (requireEvent : Bool) (expr : String) : List OnEntry :=
  if expr = "" ∨ jsTrim expr = "" then []
  else ((splitTopLevel expr ';').foldl (onSpecStep requireEvent) []).filter
    (fun e => jsTrim e.code ≠ "")

/-- The implementation's segment loop is the specification fold (with
the empty-event drop), with the accumulator kept in reverse. -/
theorem parseOnSegments_eq_foldl (segs : List String) (out : List OnEntry) :
    parseOnSegments segs out = segs.foldl (onSpecStep true) out.reverse := by
  induction segs generalizing out with
  | nil => simp [parseOnSegments]
  | cons seg rest ih =>
    simp only [parseOnSegments, List.foldl_cons]
    by_cases hb : jsTrim seg = ""
    · simp [hb, onSpecStep, ih]
    · simp only [hb, if_false, onSpecStep]
      cases hcol : findTopLevelColon (jsTrim seg) with
      | none =>
        cases out with
        | nil => simp [hb, hcol, ih]
        | cons last prev =>
          simp only [hb, hcol, ih, List.reverse_cons, List.getLast?_concat,
            List.dropLast_concat, if_false]
      | some idx =>
        by_cases hev : jsTrim (strTake (jsTrim seg) idx) = ""
        · simp [hb, hcol, hev, ih]
        · simp [hb, hcol, hev, ih]

/-- C6 (amended): for every `on`-attribute string, `parseOnAttribute`
splits the string at top-level semicolons (outside quotes — single,
double, back-tick with `${...}` tracking — and outside
bracket/brace/paren nesting), separates each entry's event name from its
code at the first top-level colon, trims whitespace, appends a segment
with no top-level colon to the preceding entry's code, and drops every
entry whose code is empty — and additionally drops every entry whose
event name is empty. -/
theorem parseOnAttribute_matches_amended_claim (expr : String) :
    parseOnAttribute expr = parseOnClaim true expr := by
  unfold parseOnAttribute parseOnClaim
  by_cases hb : expr = "" ∨ jsTrim expr = ""
  · simp [hb]
  · simp only [hb, if_false]
    rw [parseOnSegments_eq_foldl]
    simp only [List.reverse_nil]
    apply List.filter_congr
    intro e _
    by_cases hc : e.code = ""
    · simp [hc, jsTrim_empty]
    · simp [hc]

/-- C6 (counterexample): the claim as written keeps a segment whose
event name is empty (here `":x"`, event `""`, code `"x"`), but the code
drops it — `parseOnAttribute ":x"` returns no entries. -/
theorem parseOnAttribute_claim_counterexample :
    parseOnAttribute ":x" = [] ∧ parseOnClaim false ":x" = [⟨"", "x"⟩] := by
  have hsplit : splitTopLevel ":x" ';' = [":x"] := by
    simp [splitTopLevel, splitTopLevelAux, ScanSt.init, isQuoteCh, isOpenBr, isCloseBr,
      flushPart, jsTrim]
  have hcolon : findTopLevelColon ":x" = some 0 := by
    simp [findTopLevelColon, findTopLevelColonAux, ScanSt.init, isQuoteCh, isOpenBr, isCloseBr]
  constructor
  · simp [parseOnAttribute, hsplit, parseOnSegments, hcolon, strTake, strDrop, jsTrim]
  · simp [parseOnClaim, hsplit, onSpecStep, hcolon, strTake, strDrop, jsTrim]

/-! ## The list engine (`src/bindings.js`, `bindInsertList`)

The `update` closure of `bindInsertList` is modelled as a function from
the insert's configuration, the evaluated right-hand-side value and the
current list state to the new list state and the list of events fired on
the insert element.  Evaluating the `key` attribute expression is host
JavaScript; it is modelled as a total function `keyFn idx item` (the
root value is captured by the closure).  Status-slot toggling touches
only the slot elements' `hidden` attributes and fires no events, so it
is not part of the list state. -/

/-- An entry of `materializeList`: the iteration index (`idx`, a number
for arrays, a string for object keys) and the item value. -/
structure LEntry where
  idx : JVal
  item : JVal
deriving Repr

/-- `materializeList` from `bindInsertList`: arrays iterate with numeric
indices, plain objects iterate their own keys when a key variable is
declared (otherwise they fall through to the wrapping case),
`null`/`undefined` become a single-element iteration carrying the value,
and anything else is wrapped in a one-element iteration. -/
def materializeList (hasKeyVar : Bool) (value : JVal) : List LEntry :=
  match unwrapRef value with
  | .arr xs => xs.enum.map (fun p => ⟨.num p.1, unwrapRef p.2⟩)
  | .obj fs =>
    if hasKeyVar then fs.map (fun p => ⟨.str p.1, unwrapRef p.2⟩)
    else [⟨.num 0, unwrapRef (.obj fs)⟩]
  | .null => [⟨.num 0, .null⟩]
  | .undef => [⟨.num 0, .undef⟩]
  | v => [⟨.num 0, unwrapRef v⟩]

/-- A rendered item node: its `jtx-key` attribute (if any) and a stamp
standing for DOM node identity (`createNodeFor` always stamps a fresh
node). -/
structure RNode where
  key : Option String
  stamp : Nat
deriving Repr, DecidableEq

/-- The list engine's state across updates: the item nodes of the DOM
region in order, the merge bookkeeping (`mergeState.order` and
`mergeState.map`), the `prevCount` / `initFired` flags, and the next
fresh node stamp. -/
structure ListState where
  nodes : List RNode
  order : List String
  map : List (String × RNode)
  prevCount : Nat
  initFired : Bool
  fresh : Nat
deriving Repr, DecidableEq

/-- Events fired on the insert element by one list update. -/
inductive IEv where
  | init (count : Nat)
  | add (items : List JVal)
  | update (items : List JVal)
  | remove (keys : List String)
  | empty
  | error
deriving Repr

/-- Is the event a `remove`? -/
def isRemoveEv : IEv → Bool
  | .remove _ => true
  | _ => false

/-- Is the event an `add` or an `update`? -/
def isAddOrUpdateEv : IEv → Bool
  | .add _ => true
  | .update _ => true
  | _ => false

/-- The insert's configuration: whether the `for` left-hand side
declares a key variable, whether a `key` attribute is present, the
whitespace-split tokens of the `strategy` attribute, and the parsed
`window` size (`none` when absent or invalid; the source only accepts
positive finite values). -/
structure InsertCfg where
  hasKeyVar : Bool
  keyExpr : Bool
  strategyTokens : List String
  window : Option Nat
deriving Repr

/-- `replace` is the default: chosen when named, or when none of
`append`/`prepend`/`merge` appears. -/
def InsertCfg.isReplaceStrategy (c : InsertCfg) : Bool :=
  c.strategyTokens.contains "replace" ||
    (!c.strategyTokens.contains "append" && !c.strategyTokens.contains "prepend" &&
      !c.strategyTokens.contains "merge")

/-- `append` without `merge`. -/
def InsertCfg.isAppendOnly (c : InsertCfg) : Bool :=
  c.strategyTokens.contains "append" && !c.strategyTokens.contains "merge"

/-- `prepend` without `merge`. -/
def InsertCfg.isPrependOnly (c : InsertCfg) : Bool :=
  c.strategyTokens.contains "prepend" && !c.strategyTokens.contains "merge"

/-- Within the merge branch: `prepend` without `append`. -/
def InsertCfg.prependMode (c : InsertCfg) : Bool :=
  c.strategyTokens.contains "prepend" && !c.strategyTokens.contains "append"

/-- `computeKey`: with a `key` attribute, evaluate it and fall back to
the iteration index when the result is `null`/`undefined`
(`v == null ? idx : v`); without one, use the index. -/
def computeKey (cfg : InsertCfg) (keyFn : JVal → JVal → JVal) (idx item : JVal) : JVal :=
  if cfg.keyExpr then
    let v := keyFn idx item
    if v.isNullish then idx else v
  else idx

/-- The derived raw keys of a batch, in entry order. -/
def insertRawKeys (cfg : InsertCfg) (keyFn : JVal → JVal → JVal) (rootVal : JVal) : List JVal :=
  (materializeList cfg.hasKeyVar rootVal).map (fun e => computeKey cfg keyFn e.idx e.item)

/-- A derived key the validation loop rejects: `rawKey == null` or its
string form is empty. -/
def keyInvalid (k : JVal) : Bool := k.isNullish || toStr k = ""

/-- The key-validation loop shared by the replace/append/prepend clause
and the merge clause: reject the first invalid key or the first key
string already seen in the batch.  Returns `true` when the whole batch
passes. -/
def validateKeys : List JVal → List String → Bool
  | [], _ => true
  | k :: ks, seen =>
    if keyInvalid k then false
    else if seen.contains (toStr k) then false
    else validateKeys ks (toStr k :: seen)

/-- `trimWindowNodes`: with a window, drop the excess item nodes from
the head (`fromEnd = false`, append) or the tail (`fromEnd = true`,
prepend), returning the kept nodes and the removed `jtx-key` values in
removal order. -/
def trimWindowNodes (window : Option Nat) (fromEnd : Bool) (nodes : List RNode) :
    List RNode × List String :=
  match window with
  | none => (nodes, [])
  | some w =>
    if nodes.length ≤ w then (nodes, [])
    else if fromEnd then
      (nodes.take w, ((nodes.drop w).reverse).filterMap (·.key))
    else
      (nodes.drop (nodes.length - w), (nodes.take (nodes.length - w)).filterMap (·.key))

/-- The loop of `seedMergeStateFromDOMOnce` over the existing item
nodes: keyless nodes are left in place, the first node of each key is
recorded in the order list and the key→node map, and later nodes with
an already-seen key are removed from the DOM. -/
def seedMergeAux : List RNode → List String → List String → List (String × RNode) →
    List RNode → List String × List (String × RNode) × List RNode
  | [], _, order, map, kept => (order.reverse, map.reverse, kept.reverse)
  | n :: rest, seen, order, map, kept =>
    match n.key with
    | none => seedMergeAux rest seen order map (n :: kept)
    | some k =>
      if seen.contains k then seedMergeAux rest seen order map kept
      else seedMergeAux rest (k :: seen) (k :: order) ((k, n) :: map) (n :: kept)

/-- `seedMergeStateFromDOMOnce`: runs only while both the order list and
the key→node map are empty. -/
def seedMergeState (st : ListState) : ListState :=
  if st.order = [] ∧ st.map = [] then
    match seedMergeAux st.nodes [] [] [] [] with
    | (order, map, nodes) => { st with order := order, map := map, nodes := nodes }
  else st

/-- `[e]` when `b` holds, else nothing: one conditional `fire`. -/
def optEv (b : Bool) (e : IEv) : List IEv := if b then [e] else []

/-- Build one node per entry in order (`createNodeFor`), threading the
fresh stamp; each node carries its stringified derived key. -/
def buildNodes (cfg : InsertCfg) (keyFn : JVal → JVal → JVal) :
    List LEntry → Nat → List RNode × Nat
  | [], fresh => ([], fresh)
  | e :: es, fresh =>
    let k := toStr (computeKey cfg keyFn e.idx e.item)
    match buildNodes cfg keyFn es (fresh + 1) with
    | (rest, f) => (⟨some k, fresh⟩ :: rest, f)

/-- The replace branch's `fire` sequence: `init`, `remove`, `add`,
`empty`, each conditional. -/
def replaceEvents (initFired : Bool) (newCount prevCount : Nat)
    (removedKeys : List String) (addedItems : List JVal) : List IEv :=
  optEv (!initFired && decide (newCount > 0)) (.init newCount) ++
  optEv (!removedKeys.isEmpty) (.remove removedKeys) ++
  optEv (!addedItems.isEmpty) (.add addedItems) ++
  optEv (decide (newCount = 0) && decide (prevCount ≠ 0)) .empty

/-- The replace branch: remove every current item node (collecting the
keys of the keyed ones), build one fresh node per entry, insert them,
and fire `init` / `remove` / `add` / `empty` in that order. -/
def replaceBranch (cfg : InsertCfg) (keyFn : JVal → JVal → JVal)
    (entries : List LEntry) (st : ListState) : ListState × List IEv :=
  let removedKeys := st.nodes.filterMap (·.key)
  let built := buildNodes cfg keyFn entries st.fresh
  let newNodes := built.1
  let addedItems := entries.map (fun e => unwrapRef e.item)
  let newCount := newNodes.length
  ({ st with
      nodes := newNodes, fresh := built.2,
      initFired := st.initFired || decide (newCount > 0), prevCount := newCount },
    replaceEvents st.initFired newCount st.prevCount removedKeys addedItems)

/-- The append/prepend branch's `fire` sequence: `remove` (window
trim), then `init`, `add`, `empty`. -/
def apEvents (initFired : Bool) (countNow prevCount : Nat)
    (removedKeys : List String) (addedItems : List JVal) : List IEv :=
  optEv (!removedKeys.isEmpty) (.remove removedKeys) ++
  optEv (!initFired && decide (countNow > 0)) (.init countNow) ++
  optEv (!addedItems.isEmpty) (.add addedItems) ++
  optEv (decide (countNow = 0) && decide (prevCount ≠ 0)) .empty

/-- The append/prepend branch: insert one fresh node per entry at the
end (append) or, looping in reverse, at the start (prepend); trim the
window from the opposite end and fire `remove` before `init` / `add` /
`empty`.  `add` carries the items in insertion-loop order (reversed for
prepend). -/
def appendPrependBranch (cfg : InsertCfg) (keyFn : JVal → JVal → JVal)
    (entries : List LEntry) (st : ListState) : ListState × List IEv :=
  let loopEntries := if cfg.isAppendOnly then entries else entries.reverse
  let built := buildNodes cfg keyFn loopEntries st.fresh
  let newNodes := built.1
  let nodes1 := if cfg.isAppendOnly then st.nodes ++ newNodes
    else newNodes.reverse ++ st.nodes
  let addedItems := loopEntries.map (fun e => unwrapRef e.item)
  let trimmed := trimWindowNodes cfg.window cfg.isPrependOnly nodes1
  let keptNodes := trimmed.1
  let removedKeys := trimmed.2
  let countNow := keptNodes.length
  ({ st with
      nodes := keptNodes, fresh := built.2,
      initFired := st.initFired || decide (countNow > 0), prevCount := countNow },
    apEvents st.initFired countNow st.prevCount removedKeys addedItems)

/-- Replace `old` by `new` in the DOM item region (`oldNode.replaceWith
(newNode)`); a node no longer present is left alone. -/
def replaceNode (nodes : List RNode) (old new : RNode) : List RNode :=
  nodes.map (fun n => if n = old then new else n)

/-- Delete a key from the key→node map (`mergeState.map.delete`). -/
def eraseKey (map : List (String × RNode)) (k : String) : List (String × RNode) :=
  map.filter (fun p => p.1 ≠ k)

/-- Remove a node from the DOM item region (`node?.remove()`). -/
def removeNode (nodes : List RNode) (n : RNode) : List RNode :=
  nodes.filter (· ≠ n)

/-- For each removed key in order: remove its mapped node from the DOM
and delete the map entry (the per-key loop bodies of `trimWindowMerge`
and of the empty-batch clause). -/
def mergeRemoveKeys (ks : List String) (map : List (String × RNode)) (nodes : List RNode) :
    List (String × RNode) × List RNode :=
  ks.foldl
    (fun acc k =>
      let nodes' := match acc.1.lookup k with
        | some n => removeNode acc.2 n
        | none => acc.2
      (eraseKey acc.1 k, nodes'))
    (map, nodes)

/-- The in-loop accumulator of the merge strategy's incoming pass. -/
structure MergeAcc where
  nodes : List RNode
  order : List String
  map : List (String × RNode)
  fresh : Nat
  added : List JVal
  updated : List JVal
  queue : List (String × RNode × JVal)

/-- The merge loop over the (validated, duplicate-free) incoming batch:
a known key replaces its node in place and records an updated item; a
new key is appended (or queued for prepending) and records an added
item. -/
def mergeLoop (prependMode : Bool) : List (String × JVal) → MergeAcc → MergeAcc
  | [], acc => acc
  | (k, item) :: rest, acc =>
    match acc.map.lookup k with
    | some oldNode =>
      let newNode : RNode := ⟨some k, acc.fresh⟩
      mergeLoop prependMode rest
        { acc with
            nodes := replaceNode acc.nodes oldNode newNode,
            map := acc.map.map (fun p => if p.1 = k then (k, newNode) else p),
            fresh := acc.fresh + 1,
            updated := acc.updated ++ [unwrapRef item] }
    | none =>
      let newNode : RNode := ⟨some k, acc.fresh⟩
      if prependMode then
        mergeLoop prependMode rest
          { acc with
              fresh := acc.fresh + 1, queue := acc.queue ++ [(k, newNode, item)] }
      else
        mergeLoop prependMode rest
          { acc with
              nodes := acc.nodes ++ [newNode], order := acc.order ++ [k],
              map := acc.map ++ [(k, newNode)], fresh := acc.fresh + 1,
              added := acc.added ++ [unwrapRef item] }

/-- Flush the prepend queue in reverse so the incoming order is kept at
the front; each flushed node is prepended to the region and its key
unshifted onto the order list. -/
def mergeFlushQueue (acc : MergeAcc) : MergeAcc :=
  acc.queue.reverse.foldl
    (fun a p =>
      match p with
      | (k, node, item) =>
        { a with
            nodes := node :: a.nodes, order := k :: a.order,
            map := a.map ++ [(k, node)], added := a.added ++ [unwrapRef item] })
    { acc with queue := [] }

/-- `trimWindowMerge`: pop excess keys from the tail (prepend mode) or
shift them from the head, removing the mapped nodes; returns the new
order list, map, nodes, and the removed keys in removal order. -/
def trimWindowMerge (window : Option Nat) (prependMode : Bool) (order : List String)
    (map : List (String × RNode)) (nodes : List RNode) :
    List String × List (String × RNode) × List RNode × List String :=
  match window with
  | none => (order, map, nodes, [])
  | some w =>
    if order.length ≤ w then (order, map, nodes, [])
    else
      let removedKeys := if prependMode then (order.drop w).reverse
        else order.take (order.length - w)
      let kept := if prependMode then order.take w else order.drop (order.length - w)
      let removed := mergeRemoveKeys removedKeys map nodes
      (kept, removed.1, removed.2, removedKeys)

/-- The merge branch's `fire` sequence: `remove` (window trim), then
`init`, `add`, `update`, `empty`. -/
def mergeEvents (initFired : Bool) (countNow prevCount : Nat)
    (removedKeys : List String) (added updated : List JVal) : List IEv :=
  optEv (!removedKeys.isEmpty) (.remove removedKeys) ++
  optEv (!initFired && decide (countNow > 0)) (.init countNow) ++
  optEv (!added.isEmpty) (.add added) ++
  optEv (!updated.isEmpty) (.update updated) ++
  optEv (decide (countNow = 0) && decide (prevCount ≠ 0)) .empty

/-- The merge branch after seeding and validation: dedup is the identity
on a validated batch (its key strings are pairwise distinct), so the
loop runs over the entries directly; then the prepend queue is flushed,
the window trimmed, and `remove` fires before `init` / `add` / `update`
/ `empty`. -/
def mergeApply (cfg : InsertCfg) (incoming : List (String × JVal)) (st : ListState) :
    ListState × List IEv :=
  let acc0 : MergeAcc := ⟨st.nodes, st.order, st.map, st.fresh, [], [], []⟩
  let acc1 := mergeFlushQueue (mergeLoop cfg.prependMode incoming acc0)
  let trimmed := trimWindowMerge cfg.window cfg.prependMode acc1.order acc1.map acc1.nodes
  let order2 := trimmed.1
  let removedKeys := trimmed.2.2.2
  let countNow := order2.length
  ({ st with
      nodes := trimmed.2.2.1, order := order2, map := trimmed.2.1, fresh := acc1.fresh,
      initFired := st.initFired || decide (countNow > 0), prevCount := countNow },
    mergeEvents st.initFired countNow st.prevCount removedKeys acc1.added acc1.updated)

/-- The merge branch's `fire` sequence for an empty incoming batch:
`remove` then `empty`. -/
def mergeEmptyEvents (removedKeys : List String) (hadItems : Bool) : List IEv :=
  optEv (!removedKeys.isEmpty) (.remove removedKeys) ++ optEv hadItems .empty

/-- The merge branch: seed the bookkeeping from pre-existing DOM nodes
once, handle an empty batch by removing everything, then validate the
incoming keys (rejecting the batch with an `error` event) and apply the
merge loop. -/
def mergeBranch (cfg : InsertCfg) (keyFn : JVal → JVal → JVal)
    (entries : List LEntry) (rawKeys : List JVal) (st : ListState) : ListState × List IEv :=
  let st1 := seedMergeState st
  if entries.isEmpty then
    let hadItems := !st1.order.isEmpty
    let removedKeys := if hadItems then st1.order else []
    let removed := mergeRemoveKeys removedKeys st1.map st1.nodes
    ({ st1 with
        nodes := removed.2, order := [], map := removed.1, prevCount := 0 },
      mergeEmptyEvents removedKeys hadItems)
  else if !validateKeys rawKeys [] then
    (st1, [.error])
  else
    let incoming := entries.map
      (fun e => (toStr (computeKey cfg keyFn e.idx e.item), e.item))
    mergeApply cfg incoming st1

/-- The `update` closure of `bindInsertList`: materialize the batch,
validate the keys for the replace/append/prepend strategies when a key
expression is present, then dispatch on the strategy. -/
def insertUpdate (cfg : InsertCfg) (keyFn : JVal → JVal → JVal) (rootVal : JVal)
    (st : ListState) : ListState × List IEv :=
  let entries := materializeList cfg.hasKeyVar (unwrapRef rootVal)
  let rawKeys := entries.map (fun e => computeKey cfg keyFn e.idx e.item)
  if (cfg.isReplaceStrategy || cfg.isAppendOnly || cfg.isPrependOnly) && cfg.keyExpr
      && !validateKeys rawKeys [] then
    (st, [.error])
  else if cfg.isReplaceStrategy then replaceBranch cfg keyFn entries st
  else if cfg.isAppendOnly || cfg.isPrependOnly then appendPrependBranch cfg keyFn entries st
  else mergeBranch cfg keyFn entries rawKeys st

/-- C9: `materializeList` yields one entry per element with its index
for an array; one entry per own key, keyed by that key, for a plain
object when a key variable is declared; a single-element iteration
containing the value itself for `null`/`undefined`; and a one-element
iteration wrapping the value in every other case (including a plain
object without a key variable). -/
theorem materializeList_characterization (hasKeyVar : Bool) :
    (∀ xs, materializeList hasKeyVar (.arr xs) =
      xs.enum.map (fun p => ⟨.num p.1, p.2⟩)) ∧
    (∀ fs, materializeList true (.obj fs) = fs.map (fun p => ⟨.str p.1, p.2⟩)) ∧
    (materializeList hasKeyVar .null = [⟨.num 0, .null⟩] ∧
      materializeList hasKeyVar .undef = [⟨.num 0, .undef⟩]) ∧
    (∀ v : JVal, (∀ xs, v ≠ .arr xs) → (hasKeyVar = true → ∀ fs, v ≠ .obj fs) →
      v.isNullish = false → materializeList hasKeyVar v = [⟨.num 0, v⟩]) := by
  refine ⟨fun xs => rfl, fun fs => by simp [materializeList, unwrapRef], ⟨rfl, rfl⟩, ?_⟩
  intro v harr hobj hnull
  cases v with
  | null => simp [JVal.isNullish] at hnull
  | undef => simp [JVal.isNullish] at hnull
  | arr xs => exact absurd rfl (harr xs)
  | obj fs =>
    cases hkv : hasKeyVar with
    | true => exact absurd rfl (hobj hkv fs)
    | false => simp [materializeList, unwrapRef]
  | bool b => rfl
  | num n => rfl
  | str s => rfl

/-- C9 witness: a plain string wraps into a one-element iteration. -/
theorem materializeList_characterization_witness :
    (JVal.str "a").isNullish = false ∧
      materializeList false (.str "a") = [⟨.num 0, .str "a"⟩] :=
  ⟨rfl, (materializeList_characterization false).2.2.2 (.str "a")
    (fun _ => by simp) (fun h => by cases h) rfl⟩

/-- The claim's notion of a bad batch: some derived key is
null/undefined or stringifies to the empty string, or two entries share
a key string. -/
def batchKeyFault (ks : List JVal) : Prop :=
  (∃ k ∈ ks, keyInvalid k = true) ∨ ¬ (ks.map toStr).Nodup

/-- The validation loop accepts exactly the batches without a key fault
whose key strings also avoid the ambient `seen` set. -/
theorem validateKeys_true_iff (ks : List JVal) (seen : List String) :
    validateKeys ks seen = true ↔
      (∀ k ∈ ks, keyInvalid k = false) ∧ (ks.map toStr).Nodup ∧
        ∀ k ∈ ks, toStr k ∉ seen := by
  induction ks generalizing seen with
  | nil => simp [validateKeys]
  | cons k ks ih =>
    by_cases h1 : keyInvalid k = true
    · simp [validateKeys, h1]
    · by_cases h2 : toStr k ∈ seen
      · have hc : seen.contains (toStr k) = true := List.elem_iff.2 h2
        simp [validateKeys, h1, hc, h2]
      · have hkv : keyInvalid k = false := Bool.eq_false_iff.mpr h1
        have hc : ¬ (seen.contains (toStr k) = true) := by
          rw [List.elem_iff]; exact h2
        have hstep : validateKeys (k :: ks) seen = validateKeys ks (toStr k :: seen) := by
          rw [validateKeys, if_neg h1, if_neg hc]
        rw [hstep, ih]
        constructor
        · rintro ⟨hv, hnd, hs⟩
          refine ⟨?_, ?_, ?_⟩
          · intro k' hk'
            rcases List.mem_cons.1 hk' with rfl | hk'
            · exact hkv
            · exact hv k' hk'
          · rw [List.map_cons, List.nodup_cons]
            refine ⟨?_, hnd⟩
            intro hmem
            obtain ⟨k', hk', he⟩ := List.mem_map.1 hmem
            exact hs k' hk' (by rw [he]; exact List.mem_cons_self _ _)
          · intro k' hk'
            rcases List.mem_cons.1 hk' with rfl | hk'
            · exact h2
            · exact fun hmem => hs k' hk' (List.mem_cons_of_mem _ hmem)
        · rintro ⟨hv, hnd, hs⟩
          rw [List.map_cons, List.nodup_cons] at hnd
          refine ⟨fun k' hk' => hv k' (List.mem_cons_of_mem _ hk'), hnd.2, ?_⟩
          intro k' hk' hmem
          rcases List.mem_cons.1 hmem with he | hmem'
          · exact hnd.1 (List.mem_map.2 ⟨k', hk', he⟩)
          · exact hs k' (List.mem_cons_of_mem _ hk') hmem'

/-- A batch passes the validation loop (empty `seen`) precisely when it
has no key fault. -/
theorem validateKeys_false_iff (ks : List JVal) :
    validateKeys ks [] = false ↔ batchKeyFault ks := by
  rw [← Bool.not_eq_true, validateKeys_true_iff]
  unfold batchKeyFault
  constructor
  · intro h
    by_cases hv : ∀ k ∈ ks, keyInvalid k = false
    · right
      intro hnd
      exact h ⟨hv, hnd, by simp⟩
    · left
      push_neg at hv
      obtain ⟨k, hk, hne⟩ := hv
      exact ⟨k, hk, by cases hb : keyInvalid k with
        | true => rfl
        | false => exact absurd hb hne⟩
  · rintro (⟨k, hk, hinv⟩ | hnd) ⟨hv, hnd', _⟩
    · rw [hv k hk] at hinv; cases hinv
    · exact hnd hnd'

/-- An element of a conditional event singleton is that event. -/
theorem mem_optEv {b : Bool} {e ev : IEv} (h : e ∈ optEv b ev) : e = ev := by
  unfold optEv at h
  split at h
  · simpa using h
  · simp at h

/-- The replace branch's event list never holds `error`. -/
theorem error_not_mem_replaceEvents (i : Bool) (n p : Nat) (r : List String)
    (a : List JVal) : IEv.error ∉ replaceEvents i n p r a := by
  unfold replaceEvents
  simp only [List.mem_append]
  rintro (((h | h) | h) | h) <;> exact absurd (mem_optEv h) (by simp)

/-- The replace branch never fires `error`. -/
theorem error_not_mem_replaceBranch (cfg : InsertCfg) (keyFn : JVal → JVal → JVal)
    (entries : List LEntry) (st : ListState) :
    IEv.error ∉ (replaceBranch cfg keyFn entries st).2 := by
  exact error_not_mem_replaceEvents _ _ _ _ _

/-- The append/prepend branch's event list never holds `error`. -/
theorem error_not_mem_apEvents (i : Bool) (n p : Nat) (r : List String)
    (a : List JVal) : IEv.error ∉ apEvents i n p r a := by
  unfold apEvents
  simp only [List.mem_append]
  rintro (((h | h) | h) | h) <;> exact absurd (mem_optEv h) (by simp)

/-- The append/prepend branch never fires `error`. -/
theorem error_not_mem_appendPrependBranch (cfg : InsertCfg) (keyFn : JVal → JVal → JVal)
    (entries : List LEntry) (st : ListState) :
    IEv.error ∉ (appendPrependBranch cfg keyFn entries st).2 := by
  exact error_not_mem_apEvents _ _ _ _ _

/-- The merge application's event list never holds `error`. -/
theorem error_not_mem_mergeEvents (i : Bool) (n p : Nat) (r : List String)
    (a u : List JVal) : IEv.error ∉ mergeEvents i n p r a u := by
  unfold mergeEvents
  simp only [List.mem_append]
  rintro ((((h | h) | h) | h) | h) <;> exact absurd (mem_optEv h) (by simp)

/-- The merge application loop never fires `error`. -/
theorem error_not_mem_mergeApply (cfg : InsertCfg) (incoming : List (String × JVal))
    (st : ListState) : IEv.error ∉ (mergeApply cfg incoming st).2 := by
  exact error_not_mem_mergeEvents _ _ _ _ _ _

/-- C1 (counterexample): with a merge strategy whose internal
bookkeeping is still empty and a pre-existing keyed item node in the
DOM, a batch that derives an empty-string key fires `error` yet returns
with the merge order list already seeded (changed from `[]` to
`["a"]`). -/
theorem insertUpdate_validation_counterexample :
    (insertUpdate ⟨false, true, ["merge"], none⟩ (fun _ _ => .str "") (.arr [.num 1])
        ⟨[⟨some "a", 0⟩], [], [], 0, false, 1⟩).2 = [IEv.error] ∧
    (insertUpdate ⟨false, true, ["merge"], none⟩ (fun _ _ => .str "") (.arr [.num 1])
        ⟨[⟨some "a", 0⟩], [], [], 0, false, 1⟩).1.order = ["a"] ∧
    (⟨[⟨some "a", 0⟩], [], [], 0, false, 1⟩ : ListState).order = [] := by
  have hval : validateKeys [JVal.str ""] [] = false := by
    simp [validateKeys, keyInvalid, toStr_str]
  refine ⟨?_, ?_, rfl⟩ <;>
    simp [insertUpdate, materializeList, unwrapRef, computeKey, JVal.isNullish,
      InsertCfg.isReplaceStrategy, InsertCfg.isAppendOnly, InsertCfg.isPrependOnly,
      mergeBranch, seedMergeState, seedMergeAux, hval]

/-- C1 (amended): for a list-insert update with a key expression, under
every strategy: if some entry's derived key is null/undefined or
stringifies to the empty string, or two entries derive the same key
string, the update fires exactly one `error` event and returns with the
item nodes, the merge order list and the key→node map unchanged —
except that a merge-strategy update first performs its one-time seeding
of the order list and key→node map from pre-existing keyed item nodes
(dropping duplicate-keyed ones).  If every key is valid, no `error`
event fires. -/
theorem insertUpdate_key_validation (cfg : InsertCfg) (keyFn : JVal → JVal → JVal)
    (rootVal : JVal) (st : ListState) (hkey : cfg.keyExpr = true) :
    (batchKeyFault (insertRawKeys cfg keyFn rootVal) →
      insertUpdate cfg keyFn rootVal st =
        ((if cfg.isReplaceStrategy || cfg.isAppendOnly || cfg.isPrependOnly then st
          else seedMergeState st), [IEv.error])) ∧
    (¬ batchKeyFault (insertRawKeys cfg keyFn rootVal) →
      IEv.error ∉ (insertUpdate cfg keyFn rootVal st).2) := by
  have hkeys : (materializeList cfg.hasKeyVar (unwrapRef rootVal)).map
      (fun e => computeKey cfg keyFn e.idx e.item) = insertRawKeys cfg keyFn rootVal := rfl
  constructor
  · intro hfault
    have hv : validateKeys (insertRawKeys cfg keyFn rootVal) [] = false :=
      (validateKeys_false_iff _).2 hfault
    by_cases hs : (cfg.isReplaceStrategy || cfg.isAppendOnly || cfg.isPrependOnly) = true
    · simp only [insertUpdate, hkeys, hs, hkey, hv, Bool.not_false, Bool.and_self,
        Bool.true_and, Bool.and_true, if_pos, hs, if_true]
    · have hsf : (cfg.isReplaceStrategy || cfg.isAppendOnly || cfg.isPrependOnly) = false := by
        simpa using hs
      have h1 := Bool.or_eq_false_iff.1 hsf
      have h2 := Bool.or_eq_false_iff.1 h1.1
      have hR : cfg.isReplaceStrategy = false := h2.1
      have hAP : (cfg.isAppendOnly || cfg.isPrependOnly) = false := by
        simp [h2.2, h1.2]
      simp only [insertUpdate, hkeys, hsf, Bool.false_and, Bool.false_eq_true,
        if_false, hR, hAP]
      unfold mergeBranch
      have hne : (materializeList cfg.hasKeyVar (unwrapRef rootVal)).isEmpty = false := by
        cases hE : (materializeList cfg.hasKeyVar (unwrapRef rootVal)).isEmpty
        · rfl
        · exfalso
          have : materializeList cfg.hasKeyVar (unwrapRef rootVal) = [] :=
            List.isEmpty_iff.1 hE
          have : insertRawKeys cfg keyFn rootVal = [] := by
            rw [← hkeys, this]; rfl
          rw [this] at hv
          simp [validateKeys] at hv
      simp only [hne, Bool.false_eq_true, if_false, hkeys, hv, Bool.not_false, if_true]
      simp [h2.2, h1.2]
  · intro hok
    have hv : validateKeys (insertRawKeys cfg keyFn rootVal) [] = true := by
      cases hb : validateKeys (insertRawKeys cfg keyFn rootVal) [] with
      | true => rfl
      | false => exact absurd ((validateKeys_false_iff _).1 hb) hok
    simp only [insertUpdate, hkeys, hv, Bool.not_true, Bool.and_false, Bool.false_eq_true,
      if_false]
    by_cases hR : cfg.isReplaceStrategy = true
    · simp only [hR, if_true]
      exact error_not_mem_replaceBranch cfg keyFn _ st
    · simp only [Bool.not_eq_true] at hR
      simp only [hR, Bool.false_eq_true, if_false]
      by_cases hAP : (cfg.isAppendOnly || cfg.isPrependOnly) = true
      · simp only [hAP, if_true]
        exact error_not_mem_appendPrependBranch cfg keyFn _ st
      · simp only [Bool.not_eq_true] at hAP
        simp only [hAP, Bool.false_eq_true, if_false]
        unfold mergeBranch
        cases hE : (materializeList cfg.hasKeyVar (unwrapRef rootVal)).isEmpty with
        | true =>
          simp only [hE, if_true]
          show IEv.error ∉ mergeEmptyEvents _ _
          unfold mergeEmptyEvents
          simp only [List.mem_append]
          rintro (h | h) <;> exact absurd (mem_optEv h) (by simp)
        | false =>
          simp only [hE, Bool.false_eq_true, if_false, hkeys, hv, Bool.not_true,
            Bool.false_eq_true, if_false]
          exact error_not_mem_mergeApply cfg _ (seedMergeState st)

/-- C1 witness: a valid singleton batch under the replace strategy
fires no `error`. -/
theorem insertUpdate_key_validation_witness :
    (⟨false, true, ["replace"], none⟩ : InsertCfg).keyExpr = true ∧
    ¬ batchKeyFault (insertRawKeys ⟨false, true, ["replace"], none⟩
      (fun _ _ => .str "k1") (.arr [.num 7])) ∧
    IEv.error ∉ (insertUpdate ⟨false, true, ["replace"], none⟩
      (fun _ _ => .str "k1") (.arr [.num 7]) ⟨[], [], [], 0, false, 0⟩).2 := by
  refine ⟨rfl, ?_, ?_⟩
  · intro hf
    rcases hf with ⟨k, hk, hinv⟩ | hnd
    · simp [insertRawKeys, materializeList, unwrapRef, computeKey,
        JVal.isNullish] at hk
      rw [hk] at hinv
      simp [keyInvalid, toStr, JVal.isNullish, jsString] at hinv
    · apply hnd
      simp [insertRawKeys, materializeList, unwrapRef, computeKey, JVal.isNullish]
  · exact (insertUpdate_key_validation _ _ _ _ rfl).2 (by
      intro hf
      rcases hf with ⟨k, hk, hinv⟩ | hnd
      · simp [insertRawKeys, materializeList, unwrapRef, computeKey,
          JVal.isNullish] at hk
        rw [hk] at hinv
        simp [keyInvalid, toStr, JVal.isNullish, jsString] at hinv
      · apply hnd
        simp [insertRawKeys, materializeList, unwrapRef, computeKey, JVal.isNullish])

/-- The event list of one update splits into a region with no
`add`/`update` followed by a region with no `remove`. -/
def removesBeforeAdds (l : List IEv) : Prop :=
  ∃ l1 l2, l = l1 ++ l2 ∧ (∀ e ∈ l1, isAddOrUpdateEv e = false) ∧
    (∀ e ∈ l2, isRemoveEv e = false)

/-- In a split event list, every `remove` sits strictly before every
`add`/`update`. -/
theorem removesBeforeAdds_ordering {l : List IEv} (h : removesBeforeAdds l)
    (i j : Fin l.length) (hrem : isRemoveEv (l.get i) = true)
    (hadd : isAddOrUpdateEv (l.get j) = true) : (i : Nat) < (j : Nat) := by
  obtain ⟨l1, l2, rfl, h1, h2⟩ := h
  have hi1 : (i : Nat) < l1.length := by
    by_contra hc
    push_neg at hc
    have heq : (l1 ++ l2).get i = l2.get ⟨(i : Nat) - l1.length, by
        have := i.isLt; simp only [List.length_append] at this; omega⟩ := by
      apply List.get_append_right
      omega
    rw [heq] at hrem
    rw [h2 _ (List.get_mem _ _ _)] at hrem
    cases hrem
  have hj1 : l1.length ≤ (j : Nat) := by
    by_contra hc
    push_neg at hc
    have heq : (l1 ++ l2).get j = l1.get ⟨(j : Nat), hc⟩ := List.get_append _ _
    rw [heq] at hadd
    rw [h1 _ (List.get_mem _ _ _)] at hadd
    cases hadd
  omega

/-- A two-part split: no `add`/`update` in the first list, no `remove`
in the second. -/
theorem rba_split (A B : List IEv)
    (hA : ∀ e ∈ A, isAddOrUpdateEv e = false)
    (hB : ∀ e ∈ B, isRemoveEv e = false) : removesBeforeAdds (A ++ B) :=
  ⟨A, B, rfl, hA, hB⟩

/-- A four-block event list (two no-`add` blocks then two no-`remove`
blocks) is split. -/
theorem rba_four (A B C D : List IEv)
    (hA : ∀ e ∈ A, isAddOrUpdateEv e = false)
    (hB : ∀ e ∈ B, isAddOrUpdateEv e = false)
    (hC : ∀ e ∈ C, isRemoveEv e = false)
    (hD : ∀ e ∈ D, isRemoveEv e = false) :
    removesBeforeAdds (A ++ B ++ C ++ D) := by
  have h : A ++ B ++ C ++ D = (A ++ B) ++ (C ++ D) := by simp [List.append_assoc]
  rw [h]
  refine rba_split _ _ ?_ ?_
  · intro e he
    rcases List.mem_append.1 he with h | h
    · exact hA e h
    · exact hB e h
  · intro e he
    rcases List.mem_append.1 he with h | h
    · exact hC e h
    · exact hD e h

/-- A five-block event list (two no-`add` blocks then three no-`remove`
blocks) is split. -/
theorem rba_five (A B C D E : List IEv)
    (hA : ∀ e ∈ A, isAddOrUpdateEv e = false)
    (hB : ∀ e ∈ B, isAddOrUpdateEv e = false)
    (hC : ∀ e ∈ C, isRemoveEv e = false)
    (hD : ∀ e ∈ D, isRemoveEv e = false)
    (hE : ∀ e ∈ E, isRemoveEv e = false) :
    removesBeforeAdds (A ++ B ++ C ++ D ++ E) := by
  have h : A ++ B ++ C ++ D ++ E = (A ++ B) ++ (C ++ D ++ E) := by
    simp [List.append_assoc]
  rw [h]
  refine rba_split _ _ ?_ ?_
  · intro e he
    rcases List.mem_append.1 he with h | h
    · exact hA e h
    · exact hB e h
  · intro e he
    rcases List.mem_append.1 he with h | h
    · rcases List.mem_append.1 h with h | h
      · exact hC e h
      · exact hD e h
    · exact hE e h

/-- Membership in `optEv` pins the event, so any predicate holding of
the event holds of every member. -/
theorem optEv_pred {p : IEv → Bool} {ev : IEv} (b : Bool) (hp : p ev = false) :
    ∀ e ∈ optEv b ev, p e = false := fun _ he => by rw [mem_optEv he]; exact hp

/-- The replace branch fires `init`/`remove` before `add`/`empty`. -/
theorem rba_replaceEvents (i : Bool) (n p : Nat) (r : List String) (a : List JVal) :
    removesBeforeAdds (replaceEvents i n p r a) := by
  unfold replaceEvents
  exact rba_four _ _ _ _ (by intro e he; rw [mem_optEv he]; rfl) (by intro e he; rw [mem_optEv he]; rfl) (by intro e he; rw [mem_optEv he]; rfl) (by intro e he; rw [mem_optEv he]; rfl)

theorem rba_replaceBranch (cfg : InsertCfg) (keyFn : JVal → JVal → JVal)
    (entries : List LEntry) (st : ListState) :
    removesBeforeAdds (replaceBranch cfg keyFn entries st).2 := by
  exact rba_replaceEvents _ _ _ _ _

/-- The append/prepend branch fires `remove`/`init` before
`add`/`empty`. -/
theorem rba_apEvents (i : Bool) (n p : Nat) (r : List String) (a : List JVal) :
    removesBeforeAdds (apEvents i n p r a) := by
  unfold apEvents
  exact rba_four _ _ _ _ (by intro e he; rw [mem_optEv he]; rfl) (by intro e he; rw [mem_optEv he]; rfl) (by intro e he; rw [mem_optEv he]; rfl) (by intro e he; rw [mem_optEv he]; rfl)

theorem rba_appendPrependBranch (cfg : InsertCfg) (keyFn : JVal → JVal → JVal)
    (entries : List LEntry) (st : ListState) :
    removesBeforeAdds (appendPrependBranch cfg keyFn entries st).2 := by
  exact rba_apEvents _ _ _ _ _

/-- The merge application fires `remove`/`init` before
`add`/`update`/`empty`. -/
theorem rba_mergeEvents (i : Bool) (n p : Nat) (r : List String) (a u : List JVal) :
    removesBeforeAdds (mergeEvents i n p r a u) := by
  unfold mergeEvents
  exact rba_five _ _ _ _ _ (by intro e he; rw [mem_optEv he]; rfl) (by intro e he; rw [mem_optEv he]; rfl) (by intro e he; rw [mem_optEv he]; rfl) (by intro e he; rw [mem_optEv he]; rfl) (by intro e he; rw [mem_optEv he]; rfl)

theorem rba_mergeApply (cfg : InsertCfg) (incoming : List (String × JVal))
    (st : ListState) : removesBeforeAdds (mergeApply cfg incoming st).2 := by
  exact rba_mergeEvents _ _ _ _ _ _

/-- The merge branch (seeding, empty batch, validation, application)
fires every `remove` before any `add`/`update`. -/
theorem rba_mergeBranch (cfg : InsertCfg) (keyFn : JVal → JVal → JVal)
    (entries : List LEntry) (rawKeys : List JVal) (st : ListState) :
    removesBeforeAdds (mergeBranch cfg keyFn entries rawKeys st).2 := by
  unfold mergeBranch
  cases hE : entries.isEmpty with
  | true =>
    simp only [hE, if_true]
    show removesBeforeAdds (mergeEmptyEvents _ _)
    unfold mergeEmptyEvents
    exact rba_split _ _ (by intro e he; rw [mem_optEv he]; rfl) (by intro e he; rw [mem_optEv he]; rfl)
  | false =>
    simp only [hE, Bool.false_eq_true, if_false]
    cases hval : validateKeys rawKeys [] with
    | true =>
      simp only [hval, Bool.not_true, Bool.false_eq_true, if_false]
      exact rba_mergeApply cfg _ (seedMergeState st)
    | false =>
      simp only [hval, Bool.not_false, if_true]
      exact ⟨[IEv.error], [], by simp, by simp [isAddOrUpdateEv], by simp⟩

/-- One list update always splits its events into removes-then-adds. -/
theorem rba_insertUpdate (cfg : InsertCfg) (keyFn : JVal → JVal → JVal)
    (rootVal : JVal) (st : ListState) :
    removesBeforeAdds (insertUpdate cfg keyFn rootVal st).2 := by
  unfold insertUpdate
  by_cases h1 : ((cfg.isReplaceStrategy || cfg.isAppendOnly || cfg.isPrependOnly)
      && cfg.keyExpr && !validateKeys ((materializeList cfg.hasKeyVar
        (unwrapRef rootVal)).map (fun e => computeKey cfg keyFn e.idx e.item)) []) = true
  · simp only [h1, if_true]
    exact ⟨[IEv.error], [], by simp, by simp [isAddOrUpdateEv], by simp⟩
  · simp only [Bool.not_eq_true] at h1
    simp only [h1, Bool.false_eq_true, if_false]
    by_cases h2 : cfg.isReplaceStrategy = true
    · simp only [h2, if_true]
      exact rba_replaceBranch cfg keyFn _ st
    · simp only [Bool.not_eq_true] at h2
      simp only [h2, Bool.false_eq_true, if_false]
      by_cases h3 : (cfg.isAppendOnly || cfg.isPrependOnly) = true
      · simp only [h3, if_true]
        exact rba_appendPrependBranch cfg keyFn _ st
      · simp only [Bool.not_eq_true] at h3
        simp only [h3, Bool.false_eq_true, if_false]
        exact rba_mergeBranch cfg keyFn _ _ st

/-- C3: within any single list-insert update, under every strategy
(replace, append, prepend, merge, with or without a window), every
`remove` event fired by that update precedes every `add` or `update`
event fired by the same update. -/
theorem insertUpdate_remove_before_add_update (cfg : InsertCfg)
    (keyFn : JVal → JVal → JVal) (rootVal : JVal) (st : ListState)
    (i j : Fin (insertUpdate cfg keyFn rootVal st).2.length)
    (hrem : isRemoveEv ((insertUpdate cfg keyFn rootVal st).2.get i) = true)
    (hadd : isAddOrUpdateEv ((insertUpdate cfg keyFn rootVal st).2.get j) = true) :
    (i : Nat) < (j : Nat) :=
  removesBeforeAdds_ordering (rba_insertUpdate cfg keyFn rootVal st) i j hrem hadd

/-- C3 witness: an append update with window 1 onto a one-item list
fires `remove ["a"]` (index 0) before `add` (index 1). -/
theorem insertUpdate_remove_before_add_update_witness :
    isRemoveEv ((insertUpdate ⟨false, false, ["append"], some 1⟩ (fun _ _ => .null)
        (.arr [.num 5]) ⟨[⟨some "a", 0⟩], [], [], 1, true, 1⟩).2.get
      ⟨0, by simp [insertUpdate, materializeList, unwrapRef, computeKey,
        InsertCfg.isReplaceStrategy, InsertCfg.isAppendOnly, InsertCfg.isPrependOnly,
        appendPrependBranch, buildNodes, trimWindowNodes, apEvents, optEv]⟩) = true ∧
    (0 : Nat) < (1 : Nat) := by
  constructor
  · simp [insertUpdate, materializeList, unwrapRef, computeKey,
      InsertCfg.isReplaceStrategy, InsertCfg.isAppendOnly, InsertCfg.isPrependOnly,
      appendPrependBranch, buildNodes, trimWindowNodes, apEvents, optEv, isRemoveEv]
  · exact insertUpdate_remove_before_add_update ⟨false, false, ["append"], some 1⟩
      (fun _ _ => .null) (.arr [.num 5]) ⟨[⟨some "a", 0⟩], [], [], 1, true, 1⟩
      ⟨0, by simp [insertUpdate, materializeList, unwrapRef, computeKey,
        InsertCfg.isReplaceStrategy, InsertCfg.isAppendOnly, InsertCfg.isPrependOnly,
        appendPrependBranch, buildNodes, trimWindowNodes, apEvents, optEv]⟩
      ⟨1, by simp [insertUpdate, materializeList, unwrapRef, computeKey,
        InsertCfg.isReplaceStrategy, InsertCfg.isAppendOnly, InsertCfg.isPrependOnly,
        appendPrependBranch, buildNodes, trimWindowNodes, apEvents, optEv]⟩
      (by simp [insertUpdate, materializeList, unwrapRef, computeKey,
        InsertCfg.isReplaceStrategy, InsertCfg.isAppendOnly, InsertCfg.isPrependOnly,
        appendPrependBranch, buildNodes, trimWindowNodes, apEvents, optEv, isRemoveEv])
      (by simp [insertUpdate, materializeList, unwrapRef, computeKey,
        InsertCfg.isReplaceStrategy, InsertCfg.isAppendOnly, InsertCfg.isPrependOnly,
        appendPrependBranch, buildNodes, trimWindowNodes, apEvents, optEv,
        isAddOrUpdateEv])

/-! ## The reactive core's state flush (`src/core.js`, `flushStateUpdates`)

A state record is identified by `id` (standing for JavaScript object
identity).  `flushStateUpdates` iterates the registered states and then
the scoped-state set; for each state with pending keys it persists the
persisted pending keys, syncs the URL keys, fires `update` (during
which listeners may synchronously write states through the reference
proxies — modelled by the hook `h`, giving the writes `(targetId, key,
value)` performed while state `id`'s `update` event is dispatched), and
finally clears that state's `pendingKeys`. -/

/-- A state record of the registry (`src/core.js` / `src/state.js`). -/
structure StateRec where
  id : Nat
  name : String
  value : List (String × JVal)
  persistedKeys : List String
  urlKeys : List String
  pendingKeys : List String
deriving Repr

/-- `pendingKeys.add(key)`: a JS `Set` keeps insertion order and ignores
re-adds. -/
def addPending (k : String) (st : StateRec) : StateRec :=
  if st.pendingKeys.contains k then st
  else { st with pendingKeys := st.pendingKeys ++ [k] }

/-- `state.value[key] = v` on the assoc-list value. -/
def setValue (k : String) (v : JVal) (st : StateRec) : StateRec :=
  if st.value.any (fun p => p.1 = k) then
    { st with value := st.value.map (fun p => if p.1 = k then (k, v) else p) }
  else { st with value := st.value ++ [(k, v)] }

/-- `value[key]` (`none` stands for `undefined`). -/
def lookupVal (value : List (String × JVal)) (k : String) : Option JVal :=
  value.lookup k

/-- The registry: registered states plus the separate scoped-state set
(`registry.states` / `registry.scopedStates`). -/
structure Reg where
  states : List StateRec
  scopedStates : List StateRec
deriving Repr

/-- The externally observable actions of a flush: a durable-store write
(`localStorage.setItem`), a URL rewrite carrying the synced values, and
an `update` event with its `keys` payload. -/
inductive FlushOut where
  | store (id : Nat) (key : String) (v : Option JVal)
  | urlSync (id : Nat) (vals : List (String × Option JVal))
  | updateEv (id : Nat) (keys : List String)
deriving Repr

/-- One listener write `(target, key, value)` applied to every state
object with the target identity (the listener holds a reference to that
state object). -/
def applyWrite (w : Nat × String × JVal) (l : List StateRec) : List StateRec :=
  l.map (fun st => if st.id = w.1 then addPending w.2.1 (setValue w.2.1 w.2.2 st) else st)

/-- All writes performed synchronously during one `update` dispatch, in
order. -/
def applyWrites (ws : List (Nat × String × JVal)) (l : List StateRec) : List StateRec :=
  ws.foldl (fun acc w => applyWrite w acc) l

/-- `st.pendingKeys.clear()` on the state with the given identity. -/
def clearPending (i : Nat) (l : List StateRec) : List StateRec :=
  l.map (fun st => if st.id = i then { st with pendingKeys := [] } else st)

/-- Both registry partitions. -/
def Reg.all (r : Reg) : List StateRec := r.states ++ r.scopedStates

/-- Find the current version of the state object with identity `i`. -/
def Reg.find (r : Reg) (i : Nat) : Option StateRec :=
  r.all.find? (fun st => st.id = i)

/-- Apply listener writes to both partitions. -/
def Reg.write (r : Reg) (ws : List (Nat × String × JVal)) : Reg :=
  ⟨applyWrites ws r.states, applyWrites ws r.scopedStates⟩

/-- Clear the pending keys of the state with identity `i`. -/
def Reg.clear (r : Reg) (i : Nat) : Reg :=
  ⟨clearPending i r.states, clearPending i r.scopedStates⟩

/-- `processState(st)` from `flushStateUpdates`, for the state object
with identity `i`: skip when absent or with no pending keys; otherwise
persist the persisted pending keys (reading the current value), sync
the URL keys (reading the current value), fire `update` with the
pending-keys snapshot (applying the listeners' writes `h i`), then
clear the state's `pendingKeys`. -/
def processState (h : Nat → List (Nat × String × JVal)) (r : Reg) (i : Nat) :
    Reg × List FlushOut :=
  match r.find i with
  | none => (r, [])
  | some st =>
    if st.pendingKeys.isEmpty then (r, [])
    else
      let stores := (st.pendingKeys.filter (fun k => st.persistedKeys.contains k)).map
        (fun k => FlushOut.store i k (lookupVal st.value k))
      let urlOut := if st.urlKeys.isEmpty then ([] : List FlushOut)
        else [FlushOut.urlSync i (st.urlKeys.map (fun k => (k, lookupVal st.value k)))]
      let ev := FlushOut.updateEv i st.pendingKeys
      ((r.write (h i)).clear i, stores ++ urlOut ++ [ev])

/-- `flushStateUpdates`: process every registered state, then every
scoped state (the iteration order of the map and the set at entry). -/
def flushStateUpdates (h : Nat → List (Nat × String × JVal)) (r : Reg) :
    Reg × List FlushOut :=
  (r.states.map (·.id) ++ r.scopedStates.map (·.id)).foldl
    (fun acc i => ((processState h acc.1 i).1, acc.2 ++ (processState h acc.1 i).2))
    (r, [])

/-- The cumulative effect of one `update` dispatch's writes on a single
state object. -/
def writeSteps (ws : List (Nat × String × JVal)) (st : StateRec) : StateRec :=
  ws.foldl (fun s w => if s.id = w.1 then addPending w.2.1 (setValue w.2.1 w.2.2 s) else s) st

/-- Listener writes never change a state's identity. -/
theorem writeSteps_id (ws : List (Nat × String × JVal)) (st : StateRec) :
    (writeSteps ws st).id = st.id := by
  induction ws generalizing st with
  | nil => rfl
  | cons w ws ih =>
    simp only [writeSteps, List.foldl_cons] at ih ⊢
    rw [ih]
    split
    · simp [addPending, setValue]
      split <;> split <;> rfl
    · rfl

/-- Applying writes to a list of states is a pointwise map. -/
theorem applyWrites_eq_map (ws : List (Nat × String × JVal)) (l : List StateRec) :
    applyWrites ws l = l.map (writeSteps ws) := by
  induction ws generalizing l with
  | nil =>
    rw [show writeSteps [] = id from rfl, List.map_id]
    rfl
  | cons w ws ih =>
    simp only [applyWrites, List.foldl_cons] at ih ⊢
    rw [show applyWrite w l = l.map (fun st =>
        if st.id = w.1 then addPending w.2.1 (setValue w.2.1 w.2.2 st) else st) from rfl]
    rw [ih, List.map_map]
    rfl

/-- Writes fired while state `i`'s `update` dispatches leave every other
state object untouched, provided listeners write only state `i`. -/
theorem writeSteps_other {i : Nat} {ws : List (Nat × String × JVal)}
    (hself : ∀ w ∈ ws, w.1 = i) {st : StateRec} (hne : st.id ≠ i) :
    writeSteps ws st = st := by
  induction ws with
  | nil => rfl
  | cons w ws ih =>
    simp only [writeSteps, List.foldl_cons]
    rw [if_neg (by rw [hself w (List.mem_cons_self _ _)]; exact hne)]
    exact ih (fun w hw => hself w (List.mem_cons_of_mem _ hw))

/-- `processState` preserves the state identities of the registry. -/
theorem processState_ids (h : Nat → List (Nat × String × JVal)) (r : Reg) (i : Nat) :
    ((processState h r i).1.all.map (·.id)) = r.all.map (·.id) := by
  unfold processState
  cases hf : r.find i with
  | none => rfl
  | some st =>
    cases hp : st.pendingKeys.isEmpty with
    | true => simp [hf, hp]
    | false =>
      simp only [hf, hp, Bool.false_eq_true, if_false]
      show ((Reg.clear (Reg.write r (h i)) i).all.map (·.id)) = _
      unfold Reg.clear Reg.write Reg.all clearPending
      simp only [List.map_append, List.map_map, applyWrites_eq_map]
      congr 1 <;> apply List.map_congr_left <;> intro st' _ <;>
        simp only [Function.comp] <;> split <;> simp [writeSteps_id]

/-- After `processState h r i` (with listeners writing only the firing
state), the state with identity `i` has no pending keys, and every
other state object is unchanged. -/
theorem processState_pending (h : Nat → List (Nat × String × JVal)) (r : Reg) (i : Nat)
    (hself : ∀ w ∈ h i, w.1 = i) (hnodup : (r.all.map (·.id)).Nodup) :
    ∀ st' ∈ (processState h r i).1.all,
      (st'.id = i → st'.pendingKeys = []) ∧ (st'.id ≠ i → st' ∈ r.all) := by
  intro st' hmem
  unfold processState at hmem
  cases hf : r.find i with
  | none =>
    simp only [hf] at hmem
    refine ⟨?_, fun _ => hmem⟩
    intro hid
    exfalso
    have := List.find?_eq_none.1 hf st' hmem
    simp [hid] at this
  | some st =>
    simp only [hf] at hmem
    have hst_mem : st ∈ r.all := List.mem_of_find?_eq_some hf
    have hst_id : st.id = i := by
      have := List.find?_some hf
      simpa using this
    cases hp : st.pendingKeys.isEmpty with
    | true =>
      simp only [hp, if_true] at hmem
      refine ⟨?_, fun _ => hmem⟩
      intro hid
      have heq : st' = st :=
        List.inj_on_of_nodup_map hnodup hmem hst_mem (by rw [hid, hst_id])
      rw [heq]
      exact List.isEmpty_iff.1 hp
    | false =>
      simp only [hp, Bool.false_eq_true, if_false] at hmem
      have hrep : (Reg.clear (Reg.write r (h i)) i).all =
          r.all.map (fun st =>
            if (writeSteps (h i) st).id = i then
              { writeSteps (h i) st with pendingKeys := [] }
            else writeSteps (h i) st) := by
        unfold Reg.clear Reg.write Reg.all clearPending
        rw [applyWrites_eq_map, applyWrites_eq_map, List.map_map, List.map_map,
          ← List.map_append]
        rfl
      rw [hrep] at hmem
      obtain ⟨st0, hst0, hval⟩ := List.mem_map.1 hmem
      constructor
      · intro _
        by_cases h0 : st0.id = i
        · rw [← hval]
          rw [if_pos (by rw [writeSteps_id]; exact h0)]
        · rw [← hval] at *
          rw [if_neg (by rw [writeSteps_id]; exact h0),
            writeSteps_other hself h0] at *
          simp_all
      · intro hne
        by_cases h0 : st0.id = i
        · exfalso
          apply hne
          rw [← hval]
          rw [if_pos (by rw [writeSteps_id]; exact h0)]
          simpa [writeSteps_id] using h0
        · rw [← hval, if_neg (by rw [writeSteps_id]; exact h0),
            writeSteps_other hself h0]
          exact hst0

/-- The flush loop clears the pending keys of every state whose
identity it visits. -/
theorem flushFold_clears (h : Nat → List (Nat × String × JVal))
    (hself : ∀ i, ∀ w ∈ h i, w.1 = i) :
    ∀ (ids : List Nat) (r : Reg) (outs : List FlushOut),
      (r.all.map (·.id)).Nodup →
      (∀ st ∈ r.all, st.pendingKeys ≠ [] → st.id ∈ ids) →
      ∀ st ∈ (ids.foldl (fun acc i =>
          ((processState h acc.1 i).1, acc.2 ++ (processState h acc.1 i).2))
          (r, outs)).1.all,
        st.pendingKeys = [] := by
  intro ids
  induction ids with
  | nil =>
    intro r outs _ hcover st hmem
    by_contra hne
    exact absurd (hcover st hmem hne) (List.not_mem_nil _)
  | cons i ids ih =>
    intro r outs hnodup hcover st hmem
    simp only [List.foldl_cons] at hmem
    refine ih (processState h r i).1 (outs ++ (processState h r i).2) ?_ ?_ st hmem
    · rw [processState_ids]; exact hnodup
    · intro st' hst' hpend
      have hcases := processState_pending h r i (hself i) hnodup st' hst'
      by_cases hid : st'.id = i
      · exact absurd (hcases.1 hid) hpend
      · have := hcover st' (hcases.2 hid) hpend
        rcases List.mem_cons.1 this with he | hm
        · exact absurd he hid
        · exact hm

/-- C2 (counterexample): if state `b`'s `update` listener synchronously
writes a key of state `a` — which the flush already processed — the
flush returns with `a`'s `pendingKeys` holding that key, not empty. -/
theorem flushStateUpdates_counterexample :
    ((flushStateUpdates (fun i => if i = 1 then [(0, "z", JVal.null)] else [])
        ⟨[⟨0, "a", [], [], [], ["x"]⟩, ⟨1, "b", [], [], [], ["y"]⟩], []⟩).1.states.map
      (·.pendingKeys)) = [["z"], []] := by
  rfl

/-- C2 (amended): for every state, including scoped states held in the
separate scoped-state set, after `flushStateUpdates` returns the
state's `pendingKeys` set is empty — provided that listeners fired by
the flush's `update` events write keys only of the state whose event is
firing (or write nothing).  A listener that writes a state processed
earlier in the same flush leaves those keys pending. -/
theorem flushStateUpdates_clears_pendingKeys (h : Nat → List (Nat × String × JVal))
    (r : Reg) (hself : ∀ i, ∀ w ∈ h i, w.1 = i)
    (hnodup : (r.all.map (·.id)).Nodup) :
    ∀ st ∈ (flushStateUpdates h r).1.all, st.pendingKeys = [] := by
  intro st hmem
  refine flushFold_clears h hself (r.states.map (·.id) ++ r.scopedStates.map (·.id))
    r [] hnodup ?_ st hmem
  intro st' hst' _
  unfold Reg.all at hst'
  rcases List.mem_append.1 hst' with hm | hm
  · exact List.mem_append_left _ (List.mem_map_of_mem _ hm)
  · exact List.mem_append_right _ (List.mem_map_of_mem _ hm)

/-- C2 witness: a registry with one registered and one scoped pending
state, and no listener writes; the first state of the flush result has
empty `pendingKeys`, by the amended theorem. -/
theorem flushStateUpdates_clears_pendingKeys_witness :
    (⟨0, "a", [], [], [], []⟩ : StateRec) ∈
      (flushStateUpdates (fun _ => [])
        ⟨[⟨0, "a", [], [], [], ["x"]⟩], [⟨1, "s", [], [], [], ["y"]⟩]⟩).1.all ∧
    (⟨0, "a", [], [], [], []⟩ : StateRec).pendingKeys = [] := by
  have hmem : (⟨0, "a", [], [], [], []⟩ : StateRec) ∈
      (flushStateUpdates (fun _ => [])
        ⟨[⟨0, "a", [], [], [], ["x"]⟩], [⟨1, "s", [], [], [], ["y"]⟩]⟩).1.all :=
    List.Mem.head _
  exact ⟨hmem, flushStateUpdates_clears_pendingKeys (fun _ => [])
    ⟨[⟨0, "a", [], [], [], ["x"]⟩], [⟨1, "s", [], [], [], ["y"]⟩]⟩
    (fun _ w hw => absurd hw (List.not_mem_nil w)) (by decide)
    _ hmem⟩

/-- C10: keys written to the flushing state by its own `update`
listeners are cleared together with the flushed batch: the flush's
durable-store writes and URL sync are computed from the pre-event
pending keys and value, the single `update` event carries the original
pending keys, every pending key (including the listener's) is cleared,
and a subsequent flush emits no store write, no URL sync and no
`update` event for them. -/
theorem flush_listener_writes_discarded (st : StateRec)
    (h : Nat → List (Nat × String × JVal))
    (hself : ∀ w ∈ h st.id, w.1 = st.id) (hpend : st.pendingKeys ≠ []) :
    (∀ st' ∈ (flushStateUpdates h ⟨[st], []⟩).1.all, st'.pendingKeys = []) ∧
    (flushStateUpdates h ⟨[st], []⟩).2 =
      (st.pendingKeys.filter (fun k => st.persistedKeys.contains k)).map
        (fun k => FlushOut.store st.id k (lookupVal st.value k)) ++
      (if st.urlKeys.isEmpty then [] else
        [FlushOut.urlSync st.id (st.urlKeys.map (fun k => (k, lookupVal st.value k)))]) ++
      [FlushOut.updateEv st.id st.pendingKeys] ∧
    (flushStateUpdates (fun _ => []) (flushStateUpdates h ⟨[st], []⟩).1).2 = [] := by
  have hfind : (⟨[st], []⟩ : Reg).find st.id = some st := by
    unfold Reg.find Reg.all
    simp [List.find?]
  have hp : st.pendingKeys.isEmpty = false := by
    cases hl : st.pendingKeys with
    | nil => exact absurd hl hpend
    | cons a l => rfl
  have hproc : processState h ⟨[st], []⟩ st.id =
      ((Reg.clear (Reg.write ⟨[st], []⟩ (h st.id)) st.id),
        (st.pendingKeys.filter (fun k => st.persistedKeys.contains k)).map
          (fun k => FlushOut.store st.id k (lookupVal st.value k)) ++
        (if st.urlKeys.isEmpty then [] else
          [FlushOut.urlSync st.id (st.urlKeys.map (fun k => (k, lookupVal st.value k)))]) ++
        [FlushOut.updateEv st.id st.pendingKeys]) := by
    unfold processState
    rw [hfind]
    simp only [hp, Bool.false_eq_true, if_false]
  have hflush : flushStateUpdates h ⟨[st], []⟩ =
      ((Reg.clear (Reg.write ⟨[st], []⟩ (h st.id)) st.id),
        (st.pendingKeys.filter (fun k => st.persistedKeys.contains k)).map
          (fun k => FlushOut.store st.id k (lookupVal st.value k)) ++
        (if st.urlKeys.isEmpty then [] else
          [FlushOut.urlSync st.id (st.urlKeys.map (fun k => (k, lookupVal st.value k)))]) ++
        [FlushOut.updateEv st.id st.pendingKeys]) := by
    unfold flushStateUpdates
    simp only [List.map_cons, List.map_nil, List.nil_append, List.append_nil,
      List.foldl_cons, List.foldl_nil, hproc]
  have hclear : (Reg.clear (Reg.write ⟨[st], []⟩ (h st.id)) st.id).all =
      [{ writeSteps (h st.id) st with pendingKeys := [] }] := by
    unfold Reg.clear Reg.write Reg.all clearPending
    rw [applyWrites_eq_map, applyWrites_eq_map]
    simp only [List.map_cons, List.map_nil, List.append_nil]
    rw [if_pos (writeSteps_id _ _)]
  refine ⟨?_, by rw [hflush], ?_⟩
  · intro st' hmem
    rw [hflush] at hmem
    simp only at hmem
    rw [hclear] at hmem
    rcases List.mem_singleton.1 hmem with rfl
    rfl
  · rw [hflush]
    simp only
    unfold flushStateUpdates
    have hallS : (Reg.clear (Reg.write ⟨[st], []⟩ (h st.id)) st.id).states =
        [{ writeSteps (h st.id) st with pendingKeys := [] }] := by
      unfold Reg.clear Reg.write clearPending
      rw [applyWrites_eq_map]
      simp only [List.map_cons, List.map_nil]
      rw [if_pos (writeSteps_id _ _)]
    have hallX : (Reg.clear (Reg.write ⟨[st], []⟩ (h st.id)) st.id).scopedStates = [] := by
      show clearPending st.id (applyWrites (h st.id) []) = []
      rw [applyWrites_eq_map]
      rfl
    rw [hallS, hallX]
    simp only [List.map_cons, List.map_nil, List.nil_append, List.foldl_cons,
      List.foldl_nil, List.append_nil]
    unfold processState
    have : (Reg.clear (Reg.write ⟨[st], []⟩ (h st.id)) st.id).find
        ({ writeSteps (h st.id) st with pendingKeys := [] } : StateRec).id =
        some { writeSteps (h st.id) st with pendingKeys := [] } := by
      unfold Reg.find
      rw [hclear]
      simp [List.find?]
    rw [this]
    rfl

/-- C10 witness: a state with pending key `u` whose listener writes key
`extra` of the same state: the flush persists and reports only `u`, and
the next flush is silent. -/
theorem flush_listener_writes_discarded_witness :
    (⟨0, "s", [("u", .num 1)], ["u"], [], ["u"]⟩ : StateRec).pendingKeys ≠ [] ∧
    (flushStateUpdates (fun i => if i = 0 then [(0, "extra", .num 2)] else [])
        ⟨[⟨0, "s", [("u", .num 1)], ["u"], [], ["u"]⟩], []⟩).2 =
      [FlushOut.store 0 "u" (some (.num 1)), FlushOut.updateEv 0 ["u"]] ∧
    (flushStateUpdates (fun _ => [])
      (flushStateUpdates (fun i => if i = 0 then [(0, "extra", .num 2)] else [])
        ⟨[⟨0, "s", [("u", .num 1)], ["u"], [], ["u"]⟩], []⟩).1).2 = [] := by
  have h := flush_listener_writes_discarded ⟨0, "s", [("u", .num 1)], ["u"], [], ["u"]⟩
    (fun i => if i = 0 then [(0, "extra", .num 2)] else [])
    (by intro w hw; simp at hw; rw [hw]) (by simp)
  refine ⟨by simp, ?_, h.2.2⟩
  rw [h.2.1]
  rfl

/-! ## The binding-to-dependency graph (`src/core.js`)

Bindings and definitions are identified by `Nat` (object identity).
`bindingDeps` and `depBindings` are the two indices of the graph; a
missing entry and an empty set are observationally the same (the code
deletes emptied sets), so both maps are modelled as functions to lists
with `[]` as the default.  Sets are duplicate-free lists: `Set.add`
appends when absent, `Set.delete` filters. -/

/-- The two indices of the dependency graph (`registry.bindingDeps`,
`registry.depBindings`). -/
structure DepGraph where
  bindingDeps : Nat → List Nat
  depBindings : Nat → List Nat

/-- Pointwise update of a map-as-function. -/
def setEntry (m : Nat → List Nat) (k : Nat) (v : List Nat) : Nat → List Nat :=
  fun x => if x = k then v else m x

/-- `recordDependency(dep)` with `currentBinding = b`: when the dep is
not yet in the binding's set, add it there and add the binding to the
dep's set (both directions together). -/
def recordDependency (b : Nat) (dep : Nat) (g : DepGraph) : DepGraph :=
  if g.bindingDeps b |>.contains dep then g
  else
    { bindingDeps := setEntry g.bindingDeps b (g.bindingDeps b ++ [dep]),
      depBindings := setEntry g.depBindings dep (g.depBindings dep ++ [b]) }

/-- The removal phase of `runBinding`: for each previous dep of the
binding, delete the binding from that dep's set (dropping the entry
when emptied — invisible in the function model), then clear the
binding's own set. -/
def clearBindingDeps (b : Nat) (g : DepGraph) : DepGraph :=
  { bindingDeps := setEntry g.bindingDeps b [],
    depBindings := fun d =>
      if (g.bindingDeps b).contains d then (g.depBindings d).filter (· ≠ b)
      else g.depBindings d }

/-- `runBinding(binding)`: remove the stale edges in both directions,
then run the update function, which calls `recordDependency` for each
definition it actually reads (`reads`, in order). -/
def runBinding (b : Nat) (reads : List Nat) (g : DepGraph) : DepGraph :=
  reads.foldl (fun acc dep => recordDependency b dep acc) (clearBindingDeps b g)

/-- Bidirectional consistency: an edge recorded in one index is
recorded in the other. -/
def Consistent (g : DepGraph) : Prop :=
  ∀ b d, d ∈ g.bindingDeps b ↔ b ∈ g.depBindings d

/-- The empty graph (registry start-up) is consistent. -/
theorem consistent_empty : Consistent ⟨fun _ => [], fun _ => []⟩ := by
  intro b d
  simp

/-- `recordDependency` preserves bidirectional consistency. -/
theorem recordDependency_consistent {g : DepGraph} (hc : Consistent g)
    (b dep : Nat) : Consistent (recordDependency b dep g) := by
  unfold recordDependency
  split
  · exact hc
  · intro b' d'
    simp only [setEntry]
    by_cases hb : b' = b <;> by_cases hd : d' = dep <;>
      simp only [hb, hd, if_true, if_false, List.mem_append, List.mem_singleton] <;>
      try simp only [if_neg hb] <;> try simp only [if_neg hd]
    · simp [hc b dep]
    · simp [hc b d']
    · simp [hc b' dep]
    · exact hc b' d'

/-- The removal phase leaves a consistent graph: the rerun binding has
no edges in either direction, all other edges are untouched. -/
theorem clearBindingDeps_consistent {g : DepGraph} (hc : Consistent g)
    (b : Nat) : Consistent (clearBindingDeps b g) := by
  intro b' d'
  simp only [clearBindingDeps, setEntry]
  by_cases hb : b' = b
  · subst hb
    simp only [if_true]
    constructor
    · intro h
      simp at h
    · intro h
      split at h
      · exact absurd (List.mem_filter.1 h).2 (by simp)
      · next hcon =>
        exfalso
        exact hcon (List.elem_iff.2 ((hc b' d').2 h))
  · simp only [if_neg hb]
    constructor
    · intro h
      have hmem := (hc b' d').1 h
      split
      · refine List.mem_filter.2 ⟨hmem, by simp [hb]⟩
      · exact hmem
    · intro h
      apply (hc b' d').2
      split at h
      · exact (List.mem_filter.1 h).1
      · exact h

/-- C8: the binding-to-dependency graph stays bidirectionally
consistent: `runBinding` removes both directions of the binding's stale
edges before rerunning, each `recordDependency` during the rerun adds
both directions together, and consequently for every binding `B` and
definition `D`, `D ∈ bindingDeps[B]` iff `B ∈ depBindings[D]` after any
`runBinding`. -/
theorem runBinding_consistent {g : DepGraph} (hc : Consistent g)
    (b : Nat) (reads : List Nat) : Consistent (runBinding b reads g) := by
  unfold runBinding
  have hbase := clearBindingDeps_consistent hc b
  generalize clearBindingDeps b g = g0 at hbase
  induction reads generalizing g0 with
  | nil => exact hbase
  | cons r rs ih =>
    simp only [List.foldl_cons]
    exact ih (recordDependency b r g0) (recordDependency_consistent hbase b r)

/-- C8 witness: rerunning binding 1 with reads `[5, 7]` from the empty
graph records both edges and yields a consistent graph. -/
theorem runBinding_consistent_witness :
    (runBinding 1 [5, 7] ⟨fun _ => [], fun _ => []⟩).bindingDeps 1 = [5, 7] ∧
    Consistent (runBinding 1 [5, 7] ⟨fun _ => [], fun _ => []⟩) :=
  ⟨rfl, runBinding_consistent consistent_empty 1 [5, 7]⟩

/-! ## The scope resolver (`src/context.js`)

Elements are identified by `Nat`.  `parentOf` abstracts
`nextScopeAncestor` (parent element, fragment host, shadow-root host);
`parent_lt` states the DOM forest is acyclic with ancestors numbered
below descendants, which bounds every ancestor walk by `start + 1`
steps — the fuel used below, making the source's seen-set cycle guard
unnecessary.  `stateMarker` / `srcMarker` are the `__jtxState` /
`__jtxSrc` markers (the definition's name on its element). -/

/-- The DOM as seen by the resolver. -/
structure Dom where
  parentOf : Nat → Option Nat
  stateMarker : Nat → Option String
  srcMarker : Nat → Option String
  connected : Nat → Bool
  parent_lt : ∀ i j, parentOf i = some j → j < i

/-- The ancestor walk of `isWithinScope`, with fuel (sufficient by
`parent_lt`). -/
def withinFuel (d : Dom) : Nat → Nat → Nat → Bool
  | 0, _, _ => false
  | fuel + 1, cur, owner =>
    if cur = owner then true
    else
      match d.parentOf cur with
      | none => false
      | some p => withinFuel d fuel p owner

/-- `isWithinScope(descendant, owner)`: the owner is the descendant or
one of its scope ancestors. -/
def isWithinScope (d : Dom) (descendant owner : Nat) : Bool :=
  withinFuel d (descendant + 1) descendant owner

/-- The ancestor walk of `findNearestLocalState` /
`findNearestLocalSrc`, parameterized by the marker map. -/
def findLocalFuel (d : Dom) (marker : Nat → Option String) (name : String) :
    Nat → Option Nat → Option Nat
  | 0, _ => none
  | _, none => none
  | fuel + 1, some cur =>
    if marker cur = some name then some cur
    else findLocalFuel d marker name fuel (d.parentOf cur)

/-- `findNearestLocalState(el, name)`: nearest ancestor (or self)
carrying a state of that name; returns the owning element. -/
def findNearestLocalState (d : Dom) (name : String) (el : Nat) : Option Nat :=
  findLocalFuel d d.stateMarker name (el + 1) (some el)

/-- `findNearestLocalSrc(el, name)`. -/
def findNearestLocalSrc (d : Dom) (name : String) (el : Nat) : Option Nat :=
  findLocalFuel d d.srcMarker name (el + 1) (some el)

/-- `resolveState(name, currentEl)`: empty name fails; a lexically
enclosing definition wins; otherwise the global registry entry is
accepted only when the requesting element is within the definition's
element, or when the requesting element is not connected to the
document. -/
def resolveState (d : Dom) (gStates : List (String × Nat)) (name : String)
    (currentEl : Option Nat) : Option Nat :=
  if name = "" then none
  else
    match currentEl.bind (fun el => findNearestLocalState d name el) with
    | some el => some el
    | none =>
      match gStates.lookup name with
      | none => none
      | some stEl =>
        match currentEl with
        | none => none
        | some el =>
          if isWithinScope d el stEl then some stEl
          else if d.connected el = false then some stEl
          else none

/-- `resolveSrc(name, currentEl)`: like `resolveState` but requiring a
current element up front and walking the `__jtxSrc` markers. -/
def resolveSrc (d : Dom) (gSrcs : List (String × Nat)) (name : String)
    (currentEl : Option Nat) : Option Nat :=
  match currentEl with
  | none => none
  | some el =>
    if name = "" then none
    else
      match findNearestLocalSrc d name el with
      | some localEl => some localEl
      | none =>
        match gSrcs.lookup name with
        | none => none
        | some srcEl =>
          if isWithinScope d el srcEl then some srcEl
          else if d.connected el = false then some srcEl
          else none

/-- The outcome of `ctx.$ref(name)`. -/
inductive RefRes where
  | localVal
  | stateRef (el : Nat)
  | srcRef (el : Nat)
  | emptyObj
deriving Repr, DecidableEq

/-- `buildCtx(...).$ref(name)`: per-evaluation locals first, then the
state resolver, then the source resolver; when all fail a warning is
logged and the empty object is returned (`RefRes.emptyObj`). -/
def refDollar (d : Dom) (gStates gSrcs : List (String × Nat)) (locals : List String)
    (name : String) (currentEl : Option Nat) : RefRes :=
  if locals.contains name then .localVal
  else
    match resolveState d gStates name currentEl with
    | some stEl => .stateRef stEl
    | none =>
      match resolveSrc d gSrcs name currentEl with
      | some srcEl => .srcRef srcEl
      | none => .emptyObj

/-- C4 (counterexample): a disconnected requesting element that is not
within the definition's element still receives the global registry hit
— `resolveState` accepts it through the `!currentEl.isConnected`
clause, refuting "only if the requesting element is contained within
the definition's element". -/
def domC : Dom where
  parentOf := fun _ => none
  stateMarker := fun _ => none
  srcMarker := fun _ => none
  connected := fun i => decide (i = 0)
  parent_lt := by intro i j h; cases h

/-- C4 (counterexample theorem): see `domC`. -/
theorem resolveState_containment_counterexample :
    findNearestLocalState domC "ui" 1 = none ∧
    isWithinScope domC 1 0 = false ∧
    resolveState domC [("ui", 0)] "ui" (some 1) = some 0 := by
  refine ⟨rfl, rfl, rfl⟩

/-- C4 (amended): for a requesting element with no lexically enclosing
definition of the name, resolution via the global registry returns the
registered definition only if the requesting element is contained
within (or equal to) the definition's element, or the requesting
element is not connected to the document; and when resolution fails
entirely (no local, no global state, no source, no matching local),
`$ref` logs a warning and evaluates to an empty object. -/
theorem refDollar_resolution (d : Dom) (gStates gSrcs : List (String × Nat))
    (locals : List String) (name : String) (el : Nat)
    (hlocal : findNearestLocalState d name el = none) :
    (∀ stEl, resolveState d gStates name (some el) = some stEl →
      gStates.lookup name = some stEl ∧
        (isWithinScope d el stEl = true ∨ d.connected el = false)) ∧
    (locals.contains name = false →
      resolveState d gStates name (some el) = none →
      resolveSrc d gSrcs name (some el) = none →
      refDollar d gStates gSrcs locals name (some el) = .emptyObj) := by
  constructor
  · intro stEl hres
    unfold resolveState at hres
    by_cases hname : name = ""
    · rw [if_pos hname] at hres; cases hres
    · rw [if_neg hname] at hres
      rw [show (some el).bind (fun e => findNearestLocalState d name e) = none from by
        simp [hlocal]] at hres
      cases hlook : gStates.lookup name with
      | none =>
        simp only [hlook] at hres
        exact Option.noConfusion hres
      | some g =>
        simp only [hlook] at hres
        split at hres
        · next hwithin =>
          injection hres with hgs
          subst hgs
          exact ⟨rfl, Or.inl hwithin⟩
        · split at hres
          · next hconn =>
            injection hres with hgs
            subst hgs
            exact ⟨rfl, Or.inr hconn⟩
          · exact Option.noConfusion hres
  · intro hloc hst hsrc
    unfold refDollar
    rw [hloc]
    simp only [Bool.false_eq_true, if_false, hst, hsrc]

/-- C4 witness: element 1 sits inside element 0, which holds the
registered state `ui`; the global hit is accepted by containment, and
an unknown name resolves to the empty object. -/
def domW : Dom where
  parentOf := fun i => if i = 1 then some 0 else none
  stateMarker := fun _ => none
  srcMarker := fun _ => none
  connected := fun _ => true
  parent_lt := by
    intro i j h
    by_cases hi : i = 1
    · subst hi; simp at h; omega
    · simp [hi] at h

/-- C4 witness theorem: see `domW`. -/
theorem refDollar_resolution_witness :
    (findNearestLocalState domW "ui" 1 = none) ∧
    ([("ui", 0)].lookup "ui" = some 0 ∧
      (isWithinScope domW 1 0 = true ∨ domW.connected 1 = false)) ∧
    refDollar domW [("ui", 0)] [] [] "nope" (some 1) = .emptyObj := by
  refine ⟨rfl, ?_, ?_⟩
  · exact (refDollar_resolution domW [("ui", 0)] [] [] "ui" 1 rfl).1 0 rfl
  · exact (refDollar_resolution domW [("ui", 0)] [] [] "nope" 1 rfl).2 rfl rfl rfl

/-! ## HTTP source fetching and status slots (`src/src/source.js`)

`fetchHttpSource` is modelled as a pure function of the source record
and the outcome of the awaited `fetch` call (a response with a status
and body text, or a thrown exception's message).  `JSON.parse`-based
`parseJSON` is a host hook (`pj`).  The events fired on the source
element are returned as a list. -/

/-- The `src.error` record: `{ name, type, status?, message }`. -/
structure JErr where
  name : String
  type : String
  status : Option Int
  message : String
deriving Repr, DecidableEq

/-- The outcome of `await fetch(url, { headers })`. -/
inductive FetchResult where
  | resp (status : Int) (text : String)
  | thrown (message : String)
deriving Repr, DecidableEq

/-- Events fired on the source element during `fetchHttpSource`. -/
inductive SrcEv where
  | fetchEv
  | errorEv (e : JErr)
  | updateEv (name : String) (value : JVal)

/-- The mutable fields of the `src` record touched by
`fetchHttpSource`. -/
structure Src where
  name : String
  select : String
  value : JVal
  status : String
  error : Option JErr

/-- `fetchHttpSource(src)`: set status `loading`, fire `fetch`; on a
non-ok response record a `network` error with `HTTP <status>`, on a
thrown fetch record a `network` error with the thrown message — both
set status `error` and fire `error`; on success parse the body (null
for an empty 204 body), apply `select`, store the value, set status
`ready` and fire `update`. -/
def fetchHttpSource (pj : String → JVal) (src : Src) (res : FetchResult) :
    Src × List SrcEv :=
  let src1 : Src :=
    { src with
      status := "loading" }
  match res with
  | .resp status text =>
    if h : 200 ≤ status ∧ status < 300 then
      let v0 := if text = "" ∧ status = 204 then JVal.null else pj text
      let v := if src.select = "" then v0 else deepGet v0 src.select
      ({ src1 with
         value := v
         status := "ready"
         error := none },
       [.fetchEv, .updateEv src.name v])
    else
      let err : JErr := ⟨src.name, "network", some status, "HTTP " ++ toString status⟩
      ({ src1 with
         status := "error"
         error := some err },
       [.fetchEv, .errorEv err])
  | .thrown msg =>
    let err : JErr := ⟨src.name, "network", none, msg⟩
    ({ src1 with
       status := "error"
       error := some err },
     [.fetchEv, .errorEv err])

/-- C5: a non-2xx response sets `error` to a `network` record carrying
the HTTP status code, a thrown fetch sets `error` to a `network`
record carrying the thrown message; in both cases `status` becomes
`error`, an `error` event fires, and `value` is unchanged. -/
theorem fetchHttpSource_error_handling (pj : String → JVal) (src : Src)
    (status : Int) (text msg : String)
    (hbad : ¬(200 ≤ status ∧ status < 300)) :
    ((fetchHttpSource pj src (.resp status text)).1.error =
        some ⟨src.name, "network", some status, "HTTP " ++ toString status⟩ ∧
      (fetchHttpSource pj src (.resp status text)).1.status = "error" ∧
      (fetchHttpSource pj src (.resp status text)).1.value = src.value ∧
      SrcEv.errorEv ⟨src.name, "network", some status, "HTTP " ++ toString status⟩ ∈
        (fetchHttpSource pj src (.resp status text)).2) ∧
    ((fetchHttpSource pj src (.thrown msg)).1.error =
        some ⟨src.name, "network", none, msg⟩ ∧
      (fetchHttpSource pj src (.thrown msg)).1.status = "error" ∧
      (fetchHttpSource pj src (.thrown msg)).1.value = src.value ∧
      SrcEv.errorEv ⟨src.name, "network", none, msg⟩ ∈
        (fetchHttpSource pj src (.thrown msg)).2) := by
  constructor
  · simp [fetchHttpSource, dif_neg hbad]
  · exact ⟨rfl, rfl, rfl, List.Mem.tail _ (List.Mem.head _)⟩

/-- C5 witness: an HTTP 500 response and a thrown `"boom"`. -/
theorem fetchHttpSource_error_handling_witness :
    (fetchHttpSource (fun _ => JVal.null) ⟨"s", "", JVal.num 7, "idle", none⟩
        (.resp 500 "oops")).1.error =
      some ⟨"s", "network", some 500, "HTTP " ++ toString (500 : Int)⟩ ∧
    (fetchHttpSource (fun _ => JVal.null) ⟨"s", "", JVal.num 7, "idle", none⟩
        (.thrown "boom")).1.value = JVal.num 7 :=
  ⟨(fetchHttpSource_error_handling (fun _ => JVal.null)
      ⟨"s", "", JVal.num 7, "idle", none⟩ 500 "oops" "boom" (by decide)).1.1,
   (fetchHttpSource_error_handling (fun _ => JVal.null)
      ⟨"s", "", JVal.num 7, "idle", none⟩ 500 "oops" "boom" (by decide)).2.2.2.1⟩

/-! ### Status slots (`updateStatus` / `updateEmptySlot`) -/

/-- The `hidden` attribute of the three status slot elements.  The
claim considers a source that has all three slots, so the slots are
modelled as always present (the source's `if (!node) return` /
`if (loadingNode)` guards are then taken). -/
structure SlotSt where
  loadingHidden : Bool
  errorHidden : Bool
  emptyHidden : Bool
deriving Repr, DecidableEq

/-- `Array.isArray(v) && v.length === 0`. -/
def isEmptyArr : JVal → Bool
  | .arr [] => true
  | _ => false

/-- The `isEmpty` test of `updateEmptySlot`: fetch completed
successfully (`status === 'ready'`) and the value is nullish or an
empty array. -/
def isEmptyVal (status : String) (value : JVal) : Bool :=
  decide (status = "ready") && (value.isNullish || isEmptyArr value)

/-- `updateEmptySlot()`: toggle the empty slot's `hidden` attribute. -/
def updateEmptySlot (status : String) (value : JVal) (slots : SlotSt) : SlotSt :=
  { slots with
    emptyHidden := !(isEmptyVal status value) }

/-- `updateStatus(status)`: store the status, toggle the loading and
error slots, then `updateEmptySlot()`. -/
def updateStatus (newStatus : String) (value : JVal) (slots : SlotSt) :
    String × SlotSt :=
  let slots1 : SlotSt :=
    { slots with
      loadingHidden := !decide (newStatus = "loading")
      errorHidden := !decide (newStatus = "error") }
  (newStatus, updateEmptySlot newStatus value slots1)

theorem isEmptyArr_eq_true_iff (v : JVal) : isEmptyArr v = true ↔ v = .arr [] := by
  cases v with
  | arr xs => cases xs <;> simp [isEmptyArr]
  | _ => simp [isEmptyArr]

/-- C7: after `updateStatus`, the loading slot is visible iff status is
`loading`, the error slot iff `error`, the empty slot iff status is
`ready` and the value is nullish or an empty array, and at most one
slot is visible. -/
theorem updateStatus_slot_visibility (newStatus : String) (value : JVal)
    (slots : SlotSt) :
    ((updateStatus newStatus value slots).2.loadingHidden = false ↔
      newStatus = "loading") ∧
    ((updateStatus newStatus value slots).2.errorHidden = false ↔
      newStatus = "error") ∧
    ((updateStatus newStatus value slots).2.emptyHidden = false ↔
      (newStatus = "ready" ∧ (value.isNullish = true ∨ value = .arr []))) ∧
    ¬((updateStatus newStatus value slots).2.loadingHidden = false ∧
      (updateStatus newStatus value slots).2.errorHidden = false) ∧
    ¬((updateStatus newStatus value slots).2.loadingHidden = false ∧
      (updateStatus newStatus value slots).2.emptyHidden = false) ∧
    ¬((updateStatus newStatus value slots).2.errorHidden = false ∧
      (updateStatus newStatus value slots).2.emptyHidden = false) := by
  have hl : (updateStatus newStatus value slots).2.loadingHidden =
      !decide (newStatus = "loading") := rfl
  have he : (updateStatus newStatus value slots).2.errorHidden =
      !decide (newStatus = "error") := rfl
  have hm : (updateStatus newStatus value slots).2.emptyHidden =
      !(isEmptyVal newStatus value) := rfl
  have hiffl : (updateStatus newStatus value slots).2.loadingHidden = false ↔
      newStatus = "loading" := by
    rw [hl]; simp
  have hiffe : (updateStatus newStatus value slots).2.errorHidden = false ↔
      newStatus = "error" := by
    rw [he]; simp
  have hiffm : (updateStatus newStatus value slots).2.emptyHidden = false ↔
      (newStatus = "ready" ∧ (value.isNullish = true ∨ value = .arr [])) := by
    rw [hm, Bool.not_eq_false']
    simp only [isEmptyVal, Bool.and_eq_true, decide_eq_true_eq, Bool.or_eq_true,
      isEmptyArr_eq_true_iff]
  refine ⟨hiffl, hiffe, hiffm, ?_, ?_, ?_⟩
  · rintro ⟨h1, h2⟩
    rw [hiffl] at h1
    rw [hiffe] at h2
    exact absurd (h1 ▸ h2) (by decide)
  · rintro ⟨h1, h2⟩
    rw [hiffl] at h1
    rw [hiffm] at h2
    exact absurd (h1 ▸ h2.1) (by decide)
  · rintro ⟨h1, h2⟩
    rw [hiffe] at h1
    rw [hiffm] at h2
    exact absurd (h1 ▸ h2.1) (by decide)

end JTX
